import Mathlib

/-!
Verification of the Albatross staking-contract state machine
(primitives/account/src/staking_contract) against its specification.

The embedding models machine integers as `Nat` with explicit bounds, maps and
sets as canonically key-sorted association lists, and every stateful Rust
method as a function returning the result together with the (possibly
partially mutated) state, so that mutation-before-error behaviour of the
source is preserved.

The source file is in a mid-refactor state: the declared struct uses the
validator-centric fields (`active_validators_by_key`, ...) while the dispatch,
serialization and inherent code uses the older stake-centric fields
(`active_stake_by_address`, ...).  The Lean state record carries both families
of fields; each embedded function reads and writes exactly the fields the
corresponding Rust function touches.
-/

/-- Monetary amount.  Modelled from the spec: `Coin` is a non-negative integer
bounded by `MAX_COIN` with checked arithmetic (the coin crate is not part of
the sources). -/
abbrev Coin := Nat

/-- A 20-byte account address, modelled as its numeric value (< 2^160). -/
abbrev Address := Nat

/-- A compressed BLS12-381 public key (96 bytes), modelled as its numeric
value (< 2^768). -/
abbrev BlsPublicKey := Nat

/-- Modelled from the spec: the maximum representable coin value.  The exact
constant lives in the coin crate, which is not part of the sources; only
`MAX_COIN < 2^64` matters for the claims. -/
def MAX_COIN : Nat := 2 ^ 53 - 1

/-- Error kinds of the account layer, following the taxonomy of the spec and
the variants used by the staking-contract sources.  `assertFailed` models a
Rust panic (for example `assert_eq!` in `unstake`). -/
inductive AccountError where
  | invalidForRecipient
  | invalidForSender
  | invalidForTarget
  | invalidInherent
  | invalidReceipt
  | insufficientFunds (needed balance : Nat)
  | arithmeticOverflow
  | invalidSerialization
  | assertFailed
  deriving DecidableEq

/-- Decidable equality for `Except`, needed to evaluate result equations on
concrete states. -/
instance {ε α : Type} [DecidableEq ε] [DecidableEq α] :
    DecidableEq (Except ε α) := fun x y =>
  match x, y with
  | .ok a, .ok b =>
    match decEq a b with
    | isTrue h => isTrue (h ▸ rfl)
    | isFalse h => isFalse fun hh => h (Except.ok.inj hh)
  | .error a, .error b =>
    match decEq a b with
    | isTrue h => isTrue (h ▸ rfl)
    | isFalse h => isFalse fun hh => h (Except.error.inj hh)
  | .ok _, .error _ => isFalse fun hh => Except.noConfusion hh
  | .error _, .ok _ => isFalse fun hh => Except.noConfusion hh

/-- Modelled from the spec: `Account::balance_add`, checked coin addition
(the account helper lives outside the staking-contract sources). -/
def balance_add (a b : Nat) : Except AccountError Nat :=
  if a + b ≤ MAX_COIN then .ok (a + b) else .error .arithmeticOverflow

/-- Modelled from the spec: `Account::balance_sub`, checked coin
subtraction. -/
def balance_sub (a b : Nat) : Except AccountError Nat :=
  if b ≤ a then .ok (a - b) else .error (.insufficientFunds b a)

/-- Modelled from the spec: `Account::balance_sufficient` guard. -/
def balance_sufficient (balance needed : Nat) : Except AccountError Unit :=
  if needed ≤ balance then .ok () else .error (.insufficientFunds needed balance)

/-- Modelled from the spec: epoch length of the policy module (the constant
is not in the sources; any positive value works for the claims). -/
def EPOCH_LENGTH : Nat := 128

/-- Modelled from the spec: the unstaking cooldown, in blocks. -/
def UNSTAKING_DELAY : Nat := 100

/-- Modelled from the spec: number of slots selected per epoch. -/
def SLOTS : Nat := 512

/-- Modelled from the spec: `policy::macro_block_after(h)` yields the first
macro block at or after height `h`; macro blocks sit at multiples of
`EPOCH_LENGTH`. -/
def macro_block_after (h : Nat) : Nat :=
  (h + EPOCH_LENGTH - 1) / EPOCH_LENGTH * EPOCH_LENGTH

/-!  A tiny canonical finite-map library: association lists with strictly
ascending `Nat` keys.  `HashMap`, `BTreeMap`, `HashSet` and `BTreeSet` of the
source are all modelled by this canonical representation (sets as maps into
`Unit`), so that states reached by equal map contents are equal states. -/

/-- Canonical finite map from `Nat` keys: association list, strictly
ascending keys when well-formed. -/
abbrev SMap (α : Type) := List (Nat × α)

namespace SMap

/-- Lookup by key (first occurrence). -/
def find? (m : SMap α) (k : Nat) : Option α :=
  match m with
  | [] => none
  | (k1, v) :: rest => if k1 = k then some v else find? rest k

/-- Key membership. -/
def contains (m : SMap α) (k : Nat) : Bool :=
  (m.find? k).isSome

/-- Insert or replace, keeping keys ascending. -/
def insert (m : SMap α) (k : Nat) (v : α) : SMap α :=
  match m with
  | [] => [(k, v)]
  | (k1, v1) :: rest =>
    if k < k1 then (k, v) :: (k1, v1) :: rest
    else if k = k1 then (k, v) :: rest
    else (k1, v1) :: insert rest k v

/-- Remove the first binding of a key. -/
def erase (m : SMap α) (k : Nat) : SMap α :=
  match m with
  | [] => []
  | (k1, v1) :: rest => if k1 = k then rest else (k1, v1) :: erase rest k

/-- Keys are strictly ascending. -/
def Wf : SMap α → Bool
  | [] => true
  | [_] => true
  | (k1, v1) :: (k2, v2) :: rest =>
    decide (k1 < k2) && Wf ((k2, v2) :: rest)

/-- Sum a numeric projection of the values. -/
def sumBy (f : α → Nat) : SMap α → Nat
  | [] => 0
  | (_, v) :: rest => f v + sumBy f rest

theorem wf_cons {k : Nat} {v : α} {m : SMap α} (h : Wf ((k, v) :: m)) : Wf m := by
  cases m with
  | nil => rfl
  | cons p rest =>
    obtain ⟨k2, v2⟩ := p
    simp [Wf] at h
    exact h.2

theorem wf_head_lt {k k1 : Nat} {v v1 : α} {m : SMap α}
    (h : Wf ((k, v) :: m)) (hmem : (k1, v1) ∈ m) : k < k1 := by
  induction m generalizing k v with
  | nil => cases hmem
  | cons p rest ih =>
    obtain ⟨k2, v2⟩ := p
    simp only [Wf, Bool.and_eq_true, decide_eq_true_eq] at h
    rcases List.mem_cons.mp hmem with h1 | h1
    · cases h1; exact h.1
    · exact Nat.lt_trans h.1 (ih h.2 h1)

theorem find?_eq_none_of_forall {m : SMap α} {k : Nat}
    (h : ∀ p ∈ m, p.1 ≠ k) : m.find? k = none := by
  induction m with
  | nil => rfl
  | cons p rest ih =>
    obtain ⟨k1, v1⟩ := p
    simp only [find?]
    rw [if_neg (h (k1, v1) (List.mem_cons_self _ _))]
    exact ih fun q hq => h q (List.mem_cons_of_mem _ hq)

theorem find?_head_lt {m : SMap α} {k k1 : Nat} {v1 : α}
    (hwf : Wf ((k1, v1) :: m)) (hk : k < k1) : find? ((k1, v1) :: m) k = none := by
  simp only [find?]
  rw [if_neg (by omega)]
  exact find?_eq_none_of_forall fun p hp => by
    have := wf_head_lt hwf (by simpa using hp)
    omega

theorem mem_insert {m : SMap α} {k : Nat} {v : α} {q : Nat × α}
    (h : q ∈ insert m k v) : q = (k, v) ∨ q ∈ m := by
  induction m with
  | nil => simpa [insert] using h
  | cons p r ih =>
    obtain ⟨k1, v1⟩ := p
    by_cases h1 : k < k1
    · simp only [insert, if_pos h1] at h
      rcases List.mem_cons.mp h with h | h
      · exact Or.inl h
      · exact Or.inr h
    · by_cases h2 : k = k1
      · simp only [insert, if_neg h1, if_pos h2] at h
        rcases List.mem_cons.mp h with h | h
        · exact Or.inl h
        · exact Or.inr (List.mem_cons_of_mem _ h)
      · simp only [insert, if_neg h1, if_neg h2] at h
        rcases List.mem_cons.mp h with h | h
        · exact Or.inr (h ▸ List.mem_cons_self _ _)
        · rcases ih h with h | h
          · exact Or.inl h
          · exact Or.inr (List.mem_cons_of_mem _ h)

theorem wf_insert {m : SMap α} (hwf : Wf m) (k : Nat) (v : α) :
    Wf (insert m k v) := by
  induction m with
  | nil => rfl
  | cons p rest ih =>
    obtain ⟨k1, v1⟩ := p
    by_cases h1 : k < k1
    · simp only [insert, if_pos h1]
      simpa [Wf, h1] using hwf
    · by_cases h2 : k = k1
      · subst h2
        simp only [insert, if_neg h1, if_pos rfl]
        cases rest with
        | nil => rfl
        | cons q r =>
          obtain ⟨k2, v2⟩ := q
          simpa [Wf] using hwf
      · simp only [insert, if_neg h1, if_neg h2]
        have hrest := wf_cons hwf
        have hins := ih hrest
        have hk1k : k1 < k := by omega
        cases hr : insert rest k v with
        | nil => rfl
        | cons q r =>
          obtain ⟨k2, v2⟩ := q
          have hhead : k1 < k2 := by
            have hmem : (k2, v2) ∈ insert rest k v := by
              rw [hr]; exact List.mem_cons_self _ _
            rcases mem_insert hmem with h | h
            · cases h; exact hk1k
            · exact wf_head_lt hwf h
          simp only [Wf, Bool.and_eq_true, decide_eq_true_eq]
          exact ⟨hhead, by rw [← hr]; exact hins⟩

theorem find?_insert_self (m : SMap α) (k : Nat) (v : α) :
    (insert m k v).find? k = some v := by
  induction m with
  | nil => simp [insert, find?]
  | cons p rest ih =>
    obtain ⟨k1, v1⟩ := p
    by_cases h1 : k < k1
    · simp [insert, if_pos h1, find?]
    · by_cases h2 : k = k1
      · simp [insert, if_neg h1, if_pos h2, find?]
      · simp only [insert, if_neg h1, if_neg h2, find?]
        rw [if_neg (by omega)]
        exact ih

theorem find?_insert_ne (m : SMap α) {k k1 : Nat} (v : α) (h : k ≠ k1) :
    (insert m k v).find? k1 = m.find? k1 := by
  induction m with
  | nil => simp [insert, find?, if_neg h]
  | cons p rest ih =>
    obtain ⟨k2, v2⟩ := p
    by_cases h1 : k < k2
    · simp only [insert, if_pos h1, find?]
      rw [if_neg h]
    · by_cases h2 : k = k2
      · subst h2
        simp only [insert, if_neg h1, if_pos rfl, find?]
        rw [if_neg h, if_neg h]
      · simp only [insert, if_neg h1, if_neg h2, find?]
        by_cases h3 : k2 = k1
        · rw [if_pos h3, if_pos h3]
        · rw [if_neg h3, if_neg h3]
          exact ih

theorem erase_of_find?_none {m : SMap α} {k : Nat} (h : m.find? k = none) :
    m.erase k = m := by
  induction m with
  | nil => rfl
  | cons p rest ih =>
    obtain ⟨k1, v1⟩ := p
    simp only [find?] at h
    by_cases h1 : k1 = k
    · rw [if_pos h1] at h; cases h
    · rw [if_neg h1] at h
      simp only [erase, if_neg h1]
      rw [ih h]

theorem erase_insert_of_find?_none {m : SMap α} {k : Nat} (v : α)
    (h : m.find? k = none) : (insert m k v).erase k = m := by
  induction m with
  | nil => simp [insert, erase]
  | cons p rest ih =>
    obtain ⟨k1, v1⟩ := p
    simp only [find?] at h
    by_cases h1 : k1 = k
    · rw [if_pos h1] at h; cases h
    · rw [if_neg h1] at h
      by_cases h2 : k < k1
      · simp [insert, if_pos h2, erase, if_neg h1]
      · have h3 : ¬(k = k1) := fun hh => h1 hh.symm
        simp only [insert, if_neg h2, if_neg h3, erase, if_neg h1]
        rw [ih h]

theorem insert_erase_of_find?_some {m : SMap α} {k : Nat} {v : α}
    (hwf : Wf m) (h : m.find? k = some v) : insert (m.erase k) k v = m := by
  induction m with
  | nil => cases h
  | cons p rest ih =>
    obtain ⟨k1, v1⟩ := p
    simp only [find?] at h
    by_cases h1 : k1 = k
    · rw [if_pos h1] at h
      cases h
      subst h1
      simp only [erase, if_pos rfl]
      cases rest with
      | nil => rfl
      | cons q r =>
        obtain ⟨k2, v2⟩ := q
        have hlt : k1 < k2 := wf_head_lt hwf (List.mem_cons_self _ _)
        simp [insert, if_pos hlt]
    · rw [if_neg h1] at h
      have hrest := wf_cons hwf
      have hk1k : k1 < k := by
        rcases Nat.lt_trichotomy k1 k with h2 | h2 | h2
        · exact h2
        · exact absurd h2 h1
        · have hnone : find? rest k = none :=
            find?_eq_none_of_forall fun p hp => by
              have := wf_head_lt hwf (show (p.1, p.2) ∈ rest by simpa using hp)
              omega
          rw [hnone] at h
          cases h
      simp only [erase, if_neg h1, insert]
      rw [if_neg (show ¬k < k1 by omega), if_neg (show ¬k = k1 by omega)]
      rw [ih hrest h]

theorem insert_self_of_find?_some {m : SMap α} {k : Nat} {v : α}
    (hwf : Wf m) (h : m.find? k = some v) : insert m k v = m := by
  induction m with
  | nil => cases h
  | cons p rest ih =>
    obtain ⟨k1, v1⟩ := p
    simp only [find?] at h
    by_cases h1 : k1 = k
    · subst h1
      rw [if_pos rfl] at h
      cases h
      simp [insert]
    · rw [if_neg h1] at h
      have hk1k : k1 < k := by
        rcases Nat.lt_trichotomy k1 k with h2 | h2 | h2
        · exact h2
        · exact absurd h2 h1
        · have hnone : find? rest k = none :=
            find?_eq_none_of_forall fun p hp => by
              have := wf_head_lt hwf (show (p.1, p.2) ∈ rest by simpa using hp)
              omega
          rw [hnone] at h
          cases h
      simp only [insert]
      rw [if_neg (show ¬k < k1 by omega), if_neg (show ¬k = k1 by omega)]
      rw [ih (wf_cons hwf) h]

theorem find?_erase_self {m : SMap α} (hwf : Wf m) (k : Nat) :
    (m.erase k).find? k = none := by
  induction m with
  | nil => rfl
  | cons p rest ih =>
    obtain ⟨k1, v1⟩ := p
    by_cases h1 : k1 = k
    · subst h1
      simp only [erase, if_pos rfl]
      exact find?_eq_none_of_forall fun q hq => by
        have := wf_head_lt hwf (by exact hq)
        omega
    · simp only [erase, if_neg h1, find?, if_neg h1]
      exact ih (wf_cons hwf)

theorem find?_erase_ne (m : SMap α) {k k1 : Nat} (h : k ≠ k1) :
    (m.erase k).find? k1 = m.find? k1 := by
  induction m with
  | nil => rfl
  | cons p rest ih =>
    obtain ⟨k2, v2⟩ := p
    by_cases h1 : k2 = k
    · subst h1
      have he : erase ((k2, v2) :: rest) k2 = rest := by simp [erase]
      rw [he]
      simp only [find?]
      rw [if_neg h]
    · simp only [erase, if_neg h1, find?]
      by_cases h2 : k2 = k1
      · rw [if_pos h2, if_pos h2]
      · rw [if_neg h2, if_neg h2]
        exact ih

theorem mem_of_mem_erase {m : SMap α} {k : Nat} {q : Nat × α}
    (h : q ∈ erase m k) : q ∈ m := by
  induction m with
  | nil => cases h
  | cons p rest ih =>
    obtain ⟨k1, v1⟩ := p
    by_cases h1 : k1 = k
    · simp only [erase, if_pos h1] at h
      exact List.mem_cons_of_mem _ h
    · simp only [erase, if_neg h1] at h
      rcases List.mem_cons.mp h with h | h
      · exact h ▸ List.mem_cons_self _ _
      · exact List.mem_cons_of_mem _ (ih h)

theorem wf_erase {m : SMap α} (hwf : Wf m) (k : Nat) : Wf (m.erase k) := by
  induction m with
  | nil => rfl
  | cons p rest ih =>
    obtain ⟨k1, v1⟩ := p
    by_cases h1 : k1 = k
    · simp only [erase, if_pos h1]
      exact wf_cons hwf
    · simp only [erase, if_neg h1]
      have hrec := ih (wf_cons hwf)
      cases he : erase rest k with
      | nil => rfl
      | cons q r =>
        obtain ⟨k2, v2⟩ := q
        have hmem : (k2, v2) ∈ rest := by
          have hq : (k2, v2) ∈ erase rest k := by
            rw [he]; exact List.mem_cons_self _ _
          exact mem_of_mem_erase hq
        have hlt := wf_head_lt hwf hmem
        simp only [Wf, Bool.and_eq_true, decide_eq_true_eq]
        exact ⟨hlt, by rw [← he]; exact hrec⟩

theorem sumBy_erase {m : SMap α} {k : Nat} {v : α} (f : α → Nat)
    (h : m.find? k = some v) : sumBy f (m.erase k) + f v = sumBy f m := by
  induction m with
  | nil => cases h
  | cons p rest ih =>
    obtain ⟨k1, v1⟩ := p
    simp only [find?] at h
    by_cases h1 : k1 = k
    · rw [if_pos h1] at h
      cases h
      simp only [erase, if_pos h1, sumBy]
      omega
    · rw [if_neg h1] at h
      simp only [erase, if_neg h1, sumBy]
      have := ih h
      omega

theorem sumBy_insert_of_find?_none {m : SMap α} {k : Nat} (f : α → Nat) (v : α)
    (h : m.find? k = none) : sumBy f (insert m k v) = sumBy f m + f v := by
  induction m with
  | nil => simp [insert, sumBy]
  | cons p rest ih =>
    obtain ⟨k1, v1⟩ := p
    simp only [find?] at h
    by_cases h1 : k1 = k
    · rw [if_pos h1] at h; cases h
    · rw [if_neg h1] at h
      by_cases h2 : k < k1
      · simp only [insert, if_pos h2, sumBy]
        omega
      · simp only [insert, if_neg h2,
          if_neg (show ¬k = k1 from fun hh => h1 hh.symm), sumBy]
        have := ih h
        omega

theorem sumBy_insert_of_find?_some {m : SMap α} {k : Nat} {v0 : α}
    (hwf : Wf m) (f : α → Nat) (v : α) (h : m.find? k = some v0) :
    sumBy f (insert m k v) + f v0 = sumBy f m + f v := by
  induction m with
  | nil => cases h
  | cons p rest ih =>
    obtain ⟨k1, v1⟩ := p
    simp only [find?] at h
    by_cases h1 : k1 = k
    · rw [if_pos h1] at h
      cases h
      subst h1
      have hins : insert ((k1, v0) :: rest) k1 v = (k1, v) :: rest := by
        simp [insert]
      rw [hins]
      simp only [sumBy]
      omega
    · rw [if_neg h1] at h
      by_cases h2 : k < k1
      · have hnone : find? rest k = none :=
          find?_eq_none_of_forall fun p hp => by
            have := wf_head_lt hwf (show (p.1, p.2) ∈ rest by simpa using hp)
            omega
        rw [hnone] at h
        cases h
      · simp only [insert, if_neg h2,
          if_neg (show ¬k = k1 from fun hh => h1 hh.symm), sumBy]
        have := ih (wf_cons hwf) h
        omega

end SMap

/-! Entity records (primitives/account/src/staking_contract). -/

/-- Inactive stake entry: `InactiveStake` in mod.rs. -/
structure InactiveStake where
  balance : Nat
  retire_time : Nat
  deriving DecidableEq

/-- Validator record: `Validator` in validator.rs (new, validator-centric
shape). -/
structure Validator where
  balance : Nat
  reward_address : Nat
  validator_key : Nat
  active_stake_by_address : SMap Nat
  deriving DecidableEq

/-- Inactive validator: `InactiveValidator` in mod.rs (the `Arc<Mutex<..>>`
indirection is elided; the record is owned by the inactive map). -/
structure InactiveValidator where
  validator : Validator
  retire_time : Nat
  deriving DecidableEq

/-- Modelled from the spec: the old stake-centric `ActiveStake` record
(referenced by the dispatch, serializer and `select_validators` but not
defined in the sources).  Its fields follow the serialized fixture in mod.rs
(validator key plus optional reward address) and the field accesses of the
sources (`balance`, `staker_address`, `validator_key`, `reward_address`);
the staker address is kept as the key of the enclosing map. -/
structure ActiveStake where
  balance : Nat
  validator_key : Nat
  reward_address : Option Nat
  deriving DecidableEq

/-- Receipt of `InactiveStakeReceipt` in staker.rs. -/
structure InactiveStakeReceipt where
  retire_time : Nat
  deriving DecidableEq

/-- Receipt of `ActiveStakeReceipt` (fixture in mod.rs; the struct itself is
not in the sources). -/
structure ActiveStakeReceipt where
  validator_key : Nat
  reward_address : Option Nat
  deriving DecidableEq

/-- Receipt of `UnparkReceipt` in validator.rs. -/
structure UnparkReceipt where
  current_epoch : Bool
  previous_epoch : Bool
  deriving DecidableEq

/-- Receipt of `SlashReceipt` in mod.rs. -/
structure SlashReceipt where
  newly_slashed : Bool
  deriving DecidableEq

/-- Modelled from the spec: receipts travel as opaque byte strings produced
by beserial (not in the sources); following the design note of the spec they
are modelled as a tagged union, deserializing as a given receipt type
succeeds exactly when the variant matches. -/
inductive ReceiptData where
  | inactiveStakeR (r : InactiveStakeReceipt)
  | activeStakeR (r : ActiveStakeReceipt)
  | unparkR (r : UnparkReceipt)
  | slashR (r : SlashReceipt)
  deriving DecidableEq

/-- Decode a receipt as an `InactiveStakeReceipt`. -/
def ReceiptData.asInactiveStake : ReceiptData → Except AccountError InactiveStakeReceipt
  | .inactiveStakeR r => .ok r
  | _ => .error .invalidSerialization

/-- Decode a receipt as an `ActiveStakeReceipt`. -/
def ReceiptData.asActiveStake : ReceiptData → Except AccountError ActiveStakeReceipt
  | .activeStakeR r => .ok r
  | _ => .error .invalidSerialization

/-- Decode a receipt as an `UnparkReceipt`. -/
def ReceiptData.asUnpark : ReceiptData → Except AccountError UnparkReceipt
  | .unparkR r => .ok r
  | _ => .error .invalidSerialization

/-- Decode a receipt as a `SlashReceipt`. -/
def ReceiptData.asSlash : ReceiptData → Except AccountError SlashReceipt
  | .slashR r => .ok r
  | _ => .error .invalidSerialization

/-- The staking-contract state.  The source declares the validator-centric
fields (`active_validators_*`) while its dispatch, inherent and serialization
code still reads the older stake-centric fields (`active_stake_by_address`);
this record carries both families so every source function can be embedded
over the fields it actually touches.  The `active_validators_sorted` and
`active_stake_sorted` containers of the source share their records with the
corresponding by-key maps (through `Arc`), so their contents are determined
by the maps and they are not duplicated here. -/
structure StakingContract where
  balance : Nat
  active_validators_by_key : SMap Validator
  inactive_validators_by_key : SMap InactiveValidator
  active_stake_by_address : SMap ActiveStake
  inactive_stake_by_address : SMap InactiveStake
  current_epoch_parking : SMap Unit
  previous_epoch_parking : SMap Unit
  deriving DecidableEq

namespace StakingContract

/-- The lookup of `get_validator` in mod.rs: active map first, then the
inactive map. -/
def get_validator (s : StakingContract) (validator_key : Nat) :
    Option Validator :=
  match s.active_validators_by_key.find? validator_key with
  | some v => some v
  | none => (s.inactive_validators_by_key.find? validator_key).map (·.validator)

/-- Mutation through the shared `Arc<Mutex<Validator>>` handle returned by
`get_validator`: the update lands in whichever map holds the record. -/
def modify_validator (s : StakingContract) (validator_key : Nat)
    (f : Validator → Validator) : StakingContract :=
  match s.active_validators_by_key.find? validator_key with
  | some v =>
    let nm := s.active_validators_by_key.insert validator_key (f v)
    { s with active_validators_by_key := nm }
  | none =>
    match s.inactive_validators_by_key.find? validator_key with
    | some iv =>
      let niv := { iv with validator := f iv.validator }
      let nm := s.inactive_validators_by_key.insert validator_key niv
      { s with inactive_validators_by_key := nm }
    | none => s

/-- The `get_active_balance` accessor of mod.rs (stake-centric shape). -/
def get_active_balance (s : StakingContract) (staker_address : Nat) : Nat :=
  ((s.active_stake_by_address.find? staker_address).map (·.balance)).getD 0

/-- The `get_inactive_balance` accessor of mod.rs. -/
def get_inactive_balance (s : StakingContract) (staker_address : Nat) : Nat :=
  ((s.inactive_stake_by_address.find? staker_address).map (·.balance)).getD 0

/-! Staker actions of staker.rs (validator-centric shape).  Every function
returns its result together with the state as mutated so far, so that the
mutation-before-error behaviour of the source is preserved exactly. -/

/-- The `stake` action (staker.rs, lines 39-53): checks the validator exists
and the contract balance addition, then adds `value` to the validator balance
and to its per-staker entry (creating it at zero if absent). -/
def stake (s : StakingContract) (staker_address : Nat) (value : Nat)
    (validator_key : Nat) : Except AccountError Unit × StakingContract :=
  match s.get_validator validator_key with
  | none => (.error .invalidForRecipient, s)
  | some _ =>
    match balance_add s.balance value with
    | .error e => (.error e, s)
    | .ok nb =>
      let s1 := { s with balance := nb }
      let s2 := s1.modify_validator validator_key fun v =>
        let entry := (v.active_stake_by_address.find? staker_address).getD 0
        let nm := v.active_stake_by_address.insert staker_address (entry + value)
        { v with balance := v.balance + value, active_stake_by_address := nm }
      (.ok (), s2)

/-- The `revert_stake` action (staker.rs, lines 56-85).  Note that, exactly
as in the source, only the contract balance and the per-staker entry are
decremented; the validator balance is left unchanged. -/
def revert_stake (s : StakingContract) (staker_address : Nat) (value : Nat)
    (validator_key : Nat) : Except AccountError Unit × StakingContract :=
  match s.get_validator validator_key with
  | none => (.error .invalidForSender, s)
  | some v =>
    match v.active_stake_by_address.find? staker_address with
    | none => (.error .invalidForRecipient, s)
    | some stakeAmt =>
      if value > stakeAmt then (.error (.insufficientFunds value stakeAmt), s)
      else
        match balance_sub s.balance value with
        | .error e => (.error e, s)
        | .ok nb =>
          let s1 := { s with balance := nb }
          let s2 := s1.modify_validator validator_key fun v =>
            let ns := stakeAmt - value
            let nm :=
              if ns = 0 then v.active_stake_by_address.erase staker_address
              else v.active_stake_by_address.insert staker_address ns
            { v with active_stake_by_address := nm }
          (.ok (), s2)

/-- The `retire_recipient` action (staker.rs, lines 98-121): adds `value` to
the contract balance, then merges it into the inactive-stake entry, stamping
`retire_time := block_height` and reporting the prior retire time when the
entry already existed. -/
def retire_recipient (s : StakingContract) (staker_address : Nat)
    (value : Nat) (block_height : Nat) :
    Except AccountError (Option InactiveStakeReceipt) × StakingContract :=
  match balance_add s.balance value with
  | .error e => (.error e, s)
  | .ok nb =>
    let s1 := { s with balance := nb }
    match s1.inactive_stake_by_address.find? staker_address with
    | some inact =>
      let m2 := s1.inactive_stake_by_address.erase staker_address
      let s2 := { s1 with inactive_stake_by_address := m2 }
      match balance_add inact.balance value with
      | .error e => (.error e, s2)
      | .ok nbal =>
        let m3 := m2.insert staker_address ⟨nbal, block_height⟩
        (.ok (some ⟨inact.retire_time⟩),
         { s2 with inactive_stake_by_address := m3 })
    | none =>
      let m2 := s1.inactive_stake_by_address.insert staker_address
        ⟨value, block_height⟩
      (.ok none, { s1 with inactive_stake_by_address := m2 })

/-- The `reactivate_sender` action (staker.rs, lines 137-155): removes the
inactive entry, subtracts from the contract balance, and re-inserts the
remainder (with the supplied block height as retire time) only when the
entry balance strictly exceeds `value`. -/
def reactivate_sender (s : StakingContract) (staker_address : Nat)
    (value : Nat) (block_height : Nat) :
    Except AccountError InactiveStakeReceipt × StakingContract :=
  match s.inactive_stake_by_address.find? staker_address with
  | none => (.error .invalidForRecipient, s)
  | some inact =>
    let m1 := s.inactive_stake_by_address.erase staker_address
    let s1 := { s with inactive_stake_by_address := m1 }
    match balance_sub s1.balance value with
    | .error e => (.error e, s1)
    | .ok nb =>
      let s2 := { s1 with balance := nb }
      if inact.balance > value then
        match balance_sub inact.balance value with
        | .error e => (.error e, s2)
        | .ok nbal =>
          let m2 := m1.insert staker_address ⟨nbal, block_height⟩
          (.ok ⟨inact.retire_time⟩,
           { s2 with inactive_stake_by_address := m2 })
      else (.ok ⟨inact.retire_time⟩, s2)

/-- The `revert_retire_recipient` action (staker.rs, lines 124-134): checks
that a receipt is present exactly when the entry balance exceeds `value`,
then undoes the retirement through `reactivate_sender`. -/
def revert_retire_recipient (s : StakingContract) (staker_address : Nat)
    (value : Nat) (receipt : Option InactiveStakeReceipt) :
    Except AccountError Unit × StakingContract :=
  match s.inactive_stake_by_address.find? staker_address with
  | none => (.error .invalidForRecipient, s)
  | some inact =>
    if (decide (inact.balance > value)) ≠ receipt.isSome then
      (.error .invalidForRecipient, s)
    else
      let block_height := (receipt.map (·.retire_time)).getD 0
      match s.reactivate_sender staker_address value block_height with
      | (.error e, s1) => (.error e, s1)
      | (.ok _, s1) => (.ok (), s1)

/-- The `revert_reactivate_sender` action (staker.rs, lines 158-160). -/
def revert_reactivate_sender (s : StakingContract) (staker_address : Nat)
    (value : Nat) (receipt : InactiveStakeReceipt) :
    Except AccountError Unit × StakingContract :=
  match s.retire_recipient staker_address value receipt.retire_time with
  | (.error e, s1) => (.error e, s1)
  | (.ok _, s1) => (.ok (), s1)

/-- The `unstake` action (staker.rs, lines 173-194): removes the inactive
entry, subtracts from the contract balance, re-inserts the remainder when
positive (receipt `none`), and otherwise asserts full removal and reports
the prior retire time. -/
def unstake (s : StakingContract) (staker_address : Nat)
    (total_value : Nat) :
    Except AccountError (Option InactiveStakeReceipt) × StakingContract :=
  match s.inactive_stake_by_address.find? staker_address with
  | none => (.error .invalidForSender, s)
  | some inact =>
    let m1 := s.inactive_stake_by_address.erase staker_address
    let s1 := { s with inactive_stake_by_address := m1 }
    match balance_sub s1.balance total_value with
    | .error e => (.error e, s1)
    | .ok nb =>
      let s2 := { s1 with balance := nb }
      if inact.balance > total_value then
        match balance_sub inact.balance total_value with
        | .error e => (.error e, s2)
        | .ok nbal =>
          let m2 := m1.insert staker_address ⟨nbal, inact.retire_time⟩
          (.ok none, { s2 with inactive_stake_by_address := m2 })
      else
        if inact.balance = total_value then
          (.ok (some ⟨inact.retire_time⟩), s2)
        else
          (.error .assertFailed, s2)

/-- The `revert_unstake` action (staker.rs, lines 197-219). -/
def revert_unstake (s : StakingContract) (staker_address : Nat)
    (total_value : Nat) (receipt : Option InactiveStakeReceipt) :
    Except AccountError Unit × StakingContract :=
  match balance_add s.balance total_value with
  | .error e => (.error e, s)
  | .ok nb =>
    let s1 := { s with balance := nb }
    match s1.inactive_stake_by_address.find? staker_address with
    | some inact =>
      let m2 := s1.inactive_stake_by_address.erase staker_address
      let s2 := { s1 with inactive_stake_by_address := m2 }
      if receipt.isSome then (.error .invalidReceipt, s2)
      else
        match balance_add inact.balance total_value with
        | .error e => (.error e, s2)
        | .ok nbal =>
          let m3 := m2.insert staker_address ⟨nbal, inact.retire_time⟩
          (.ok (), { s2 with inactive_stake_by_address := m3 })
    | none =>
      match receipt with
      | none => (.error .invalidReceipt, s1)
      | some r =>
        let m2 := s1.inactive_stake_by_address.insert staker_address
          ⟨total_value, r.retire_time⟩
        (.ok (), { s1 with inactive_stake_by_address := m2 })

end StakingContract

namespace StakingContract

/-! The stake-centric staker actions called by the dispatch of
actions/mod.rs.  Their definitions were removed from the sources during the
refactor (only their call sites remain), so they are modelled from the spec
(sections 4.2 Unpark, 4.3 Stake/Retire and the design note on silent
overwriting of the delegation), following the guard-prologue /
infallible-epilogue failure model the spec prescribes. -/

/-- Modelled from the spec: the stake action in the stake-centric shape, as
called by `commit_incoming_transaction`.  The validator must exist; `value`
is added to the contract balance and merged into the per-address active
stake, silently overwriting the recorded delegation (prior key and reward
address go into the receipt). -/
def stake_old (s : StakingContract) (staker_address : Nat) (value : Nat)
    (validator_key : Nat) (reward_address : Option Nat) :
    Except AccountError (Option ActiveStakeReceipt) × StakingContract :=
  match s.get_validator validator_key with
  | none => (.error .invalidForRecipient, s)
  | some _ =>
    match balance_add s.balance value with
    | .error e => (.error e, s)
    | .ok nb =>
      match s.active_stake_by_address.find? staker_address with
      | some entry =>
        match balance_add entry.balance value with
        | .error e => (.error e, s)
        | .ok nbal =>
          let nm := s.active_stake_by_address.insert staker_address
            ⟨nbal, validator_key, reward_address⟩
          (.ok (some ⟨entry.validator_key, entry.reward_address⟩),
           { s with balance := nb, active_stake_by_address := nm })
      | none =>
        let nm := s.active_stake_by_address.insert staker_address
          ⟨value, validator_key, reward_address⟩
        (.ok none, { s with balance := nb, active_stake_by_address := nm })

/-- Modelled from the spec: the inverse of `stake_old`, as called by
`revert_incoming_transaction`: subtracts `value` from the balance and the
entry, removes the entry when it reaches zero, and restores the prior
delegation from the receipt when one is given. -/
def revert_stake_old (s : StakingContract) (staker_address : Nat)
    (value : Nat) (receipt : Option ActiveStakeReceipt) :
    Except AccountError Unit × StakingContract :=
  match s.active_stake_by_address.find? staker_address with
  | none => (.error .invalidForSender, s)
  | some entry =>
    if value > entry.balance then
      (.error (.insufficientFunds value entry.balance), s)
    else
      match balance_sub s.balance value with
      | .error e => (.error e, s)
      | .ok nb =>
        let ns := entry.balance - value
        if ns = 0 then
          let nm := s.active_stake_by_address.erase staker_address
          (.ok (), { s with balance := nb, active_stake_by_address := nm })
        else
          match receipt with
          | some r =>
            let nm := s.active_stake_by_address.insert staker_address
              ⟨ns, r.validator_key, r.reward_address⟩
            (.ok (), { s with balance := nb, active_stake_by_address := nm })
          | none =>
            let nm := s.active_stake_by_address.insert staker_address
              ⟨ns, entry.validator_key, entry.reward_address⟩
            (.ok (), { s with balance := nb, active_stake_by_address := nm })

/-- Modelled from the spec: the sender half of a staker retirement in the
stake-centric shape, as called by `commit_outgoing_transaction` and by the
finalize-epoch sweep (the block height argument is unused, matching the call
sites).  Decrements the active entry and the contract balance; on full
removal the receipt records the delegation so revert can restore it. -/
def retire_sender_old (s : StakingContract) (staker_address : Nat)
    (value : Nat) (_block_height : Nat) :
    Except AccountError (Option ActiveStakeReceipt) × StakingContract :=
  match s.active_stake_by_address.find? staker_address with
  | none => (.error .invalidForSender, s)
  | some entry =>
    if value > entry.balance then
      (.error (.insufficientFunds value entry.balance), s)
    else
      match balance_sub s.balance value with
      | .error e => (.error e, s)
      | .ok nb =>
        let ns := entry.balance - value
        if ns = 0 then
          let nm := s.active_stake_by_address.erase staker_address
          (.ok (some ⟨entry.validator_key, entry.reward_address⟩),
           { s with balance := nb, active_stake_by_address := nm })
        else
          let nm := s.active_stake_by_address.insert staker_address
            ⟨ns, entry.validator_key, entry.reward_address⟩
          (.ok none, { s with balance := nb, active_stake_by_address := nm })

/-- Modelled from the spec: the inverse of `retire_sender_old`, as called by
`revert_outgoing_transaction`.  Adds the value back into the entry, or
recreates the entry from the receipt when it had been fully removed. -/
def revert_retire_sender_old (s : StakingContract) (staker_address : Nat)
    (value : Nat) (receipt : Option ActiveStakeReceipt) :
    Except AccountError Unit × StakingContract :=
  match balance_add s.balance value with
  | .error e => (.error e, s)
  | .ok nb =>
    match s.active_stake_by_address.find? staker_address with
    | some entry =>
      match balance_add entry.balance value with
      | .error e => (.error e, s)
      | .ok nbal =>
        let nm := s.active_stake_by_address.insert staker_address
          ⟨nbal, entry.validator_key, entry.reward_address⟩
        (.ok (), { s with balance := nb, active_stake_by_address := nm })
    | none =>
      match receipt with
      | none => (.error .invalidReceipt, s)
      | some r =>
        let nm := s.active_stake_by_address.insert staker_address
          ⟨value, r.validator_key, r.reward_address⟩
        (.ok (), { s with balance := nb, active_stake_by_address := nm })

/-- Modelled from the spec (section 4.2 Unpark): the recipient half of an
unpark self transaction, as called by `commit_incoming_transaction`.
Removes the address from both parking sets; fails when absent from both;
the receipt records which sets contained it. -/
def unpark_recipient (s : StakingContract) (staker_address : Nat)
    (_value : Nat) : Except AccountError UnparkReceipt × StakingContract :=
  let cur := s.current_epoch_parking.contains staker_address
  let prev := s.previous_epoch_parking.contains staker_address
  let c1 := s.current_epoch_parking.erase staker_address
  let p1 := s.previous_epoch_parking.erase staker_address
  let s1 := { s with current_epoch_parking := c1, previous_epoch_parking := p1 }
  if !cur && !prev then (.error .invalidForRecipient, s1)
  else (.ok ⟨cur, prev⟩, s1)

/-- Modelled from the spec: the inverse of `unpark_recipient`, as called by
`revert_incoming_transaction`: re-inserts the address into the parking sets
named by the receipt. -/
def revert_unpark_recipient (s : StakingContract) (staker_address : Nat)
    (_value : Nat) (receipt : UnparkReceipt) :
    Except AccountError Unit × StakingContract :=
  let c1 := if receipt.current_epoch then
    s.current_epoch_parking.insert staker_address () else s.current_epoch_parking
  let p1 := if receipt.previous_epoch then
    s.previous_epoch_parking.insert staker_address () else s.previous_epoch_parking
  (.ok (), { s with current_epoch_parking := c1, previous_epoch_parking := p1 })

/-- Modelled from the spec: the sender half of an unpark self transaction,
as called by `commit_outgoing_transaction`.  All validation happens in
`check_outgoing_transaction` and the dispatch records no receipt for this
half, so it performs no state change. -/
def unpark_sender (s : StakingContract) (_staker_address : Nat)
    (_total_value _fee : Nat) : Except AccountError Unit × StakingContract :=
  (.ok (), s)

/-- Modelled from the spec: the inverse of `unpark_sender`; no state
change. -/
def revert_unpark_sender (s : StakingContract) (_staker_address : Nat)
    (_total_value _fee : Nat) : Except AccountError Unit × StakingContract :=
  (.ok (), s)

end StakingContract

/-! Transactions and inherents, as visible to the staking contract. -/

/-- The self-transaction type tag `StakingSelfTransactionType` (transaction
crate, modelled from the spec). -/
inductive StakingSelfTxType where
  | retireStake
  | unpark
  deriving DecidableEq

/-- Modelled from the spec: the result of parsing the data field of a
staking transaction.  `stakeData` is a well-formed `StakingTransactionData`
(validator key, optional reward address, valid proof of knowledge);
`selfData` is a well-formed self-transaction tag; `malformed` stands for any
byte string that parses as neither. -/
inductive StakingTxData where
  | stakeData (validator_key : Nat) (reward_address : Option Nat)
  | selfData (ty : StakingSelfTxType)
  | malformed
  deriving DecidableEq

/-- A transaction, restricted to the fields the staking contract reads.
The `signer` field models `SignatureProof::compute_signer` applied to the
proof field (`none` when the proof does not deserialize). -/
structure Transaction where
  sender : Nat
  recipient : Nat
  value : Nat
  fee : Nat
  data : StakingTxData
  signer : Option Nat
  deriving DecidableEq

namespace Transaction

/-- Modelled from the spec: `transaction.total_value()` is the checked sum
of value and fee. -/
def total_value (tx : Transaction) : Except AccountError Nat :=
  balance_add tx.value tx.fee

/-- The `get_signer` helper of mod.rs: deserializes the signature proof and
computes the signer. -/
def get_signer (tx : Transaction) : Except AccountError Nat :=
  match tx.signer with
  | some a => .ok a
  | none => .error .invalidSerialization

/-- Modelled from the spec: `StakingTransactionData::parse`, succeeding
exactly on well-formed stake data. -/
def parse_staking_data (tx : Transaction) :
    Except AccountError (Nat × Option Nat) :=
  match tx.data with
  | .stakeData k r => .ok (k, r)
  | _ => .error .invalidSerialization

/-- Modelled from the spec: deserializing a `StakingSelfTransactionType`
from the data field (including the length check of the dispatch). -/
def parse_self_type (tx : Transaction) :
    Except AccountError StakingSelfTxType :=
  match tx.data with
  | .selfData ty => .ok ty
  | _ => .error .invalidSerialization

end Transaction

/-- Inherent kinds (inherent module of the account crate). -/
inductive InherentType where
  | slash
  | finalizeEpoch
  | reward
  deriving DecidableEq

/-- An inherent: kind, value, and raw data bytes. -/
structure Inherent where
  ty : InherentType
  value : Nat
  data : List Nat
  deriving DecidableEq

/-- Size of an `Address` in bytes. -/
def ADDRESS_SIZE : Nat := 20

/-- Big-endian byte-list to number. -/
def bytesToNat (bs : List Nat) : Nat :=
  bs.foldl (fun a b => a * 256 + b) 0

/-- Deserializing an `Address` from raw bytes (fixed 20-byte big-endian
encoding; fails unless exactly 20 bytes are present). -/
def deserializeAddress (bs : List Nat) : Except AccountError Nat :=
  if bs.length = ADDRESS_SIZE then .ok (bytesToNat bs)
  else .error .invalidSerialization

namespace StakingContract

/-! Transaction and inherent dispatch (actions/mod.rs). -/

/-- The `commit_incoming_transaction` hook (actions/mod.rs, lines 62-86).
A non-self transaction is a stake; a self transaction is dispatched on its
data tag to the retire-recipient or unpark-recipient half, with the staker
address taken from the signature proof. -/
def commit_incoming_transaction (s : StakingContract) (tx : Transaction)
    (block_height : Nat) :
    Except AccountError (Option ReceiptData) × StakingContract :=
  if tx.sender ≠ tx.recipient then
    match tx.parse_staking_data with
    | .error e => (.error e, s)
    | .ok (validator_key, reward_address) =>
      match s.stake_old tx.sender tx.value validator_key reward_address with
      | (.error e, s1) => (.error e, s1)
      | (.ok rc, s1) => (.ok (rc.map (.activeStakeR ·)), s1)
  else
    match tx.parse_self_type with
    | .error e => (.error e, s)
    | .ok ty =>
      match tx.get_signer with
      | .error e => (.error e, s)
      | .ok staker_address =>
        match ty with
        | .retireStake =>
          match s.retire_recipient staker_address tx.value block_height with
          | (.error e, s1) => (.error e, s1)
          | (.ok rc, s1) => (.ok (rc.map (.inactiveStakeR ·)), s1)
        | .unpark =>
          match s.unpark_recipient staker_address tx.value with
          | (.error e, s1) => (.error e, s1)
          | (.ok rc, s1) => (.ok (some (.unparkR rc)), s1)

/-- The `revert_incoming_transaction` hook (actions/mod.rs, lines 88-115). -/
def revert_incoming_transaction (s : StakingContract) (tx : Transaction)
    (_block_height : Nat) (receipt : Option ReceiptData) :
    Except AccountError Unit × StakingContract :=
  if tx.sender ≠ tx.recipient then
    match receipt with
    | none => s.revert_stake_old tx.sender tx.value none
    | some rd =>
      match rd.asActiveStake with
      | .error e => (.error e, s)
      | .ok r => s.revert_stake_old tx.sender tx.value (some r)
  else
    match tx.parse_self_type with
    | .error e => (.error e, s)
    | .ok ty =>
      match tx.get_signer with
      | .error e => (.error e, s)
      | .ok staker_address =>
        match ty with
        | .retireStake =>
          match receipt with
          | none => s.revert_retire_recipient staker_address tx.value none
          | some rd =>
            match rd.asInactiveStake with
            | .error e => (.error e, s)
            | .ok r => s.revert_retire_recipient staker_address tx.value (some r)
        | .unpark =>
          match receipt with
          | none => (.error .invalidReceipt, s)
          | some rd =>
            match rd.asUnpark with
            | .error e => (.error e, s)
            | .ok r => s.revert_unpark_recipient staker_address tx.value r

/-- The `check_outgoing_transaction` hook (actions/mod.rs, lines 117-153).
For an unstake (non-self) transaction: the signer must have an inactive
entry, the unstake delay must have elapsed, and the inactive balance must
cover the total value.  For a self transaction: the signer must have an
active entry; a retire needs the active balance to cover the total value;
an unpark needs the active balance to equal the total value and the signer
to be parked. -/
def check_outgoing_transaction (s : StakingContract) (tx : Transaction)
    (block_height : Nat) : Except AccountError Unit :=
  match tx.get_signer with
  | .error e => .error e
  | .ok staker_address =>
    if tx.sender ≠ tx.recipient then
      match s.inactive_stake_by_address.find? staker_address with
      | none => .error .invalidForSender
      | some inactive_stake =>
        if block_height < macro_block_after inactive_stake.retire_time +
            UNSTAKING_DELAY then
          .error .invalidForSender
        else
          match tx.total_value with
          | .error e => .error e
          | .ok tv => balance_sufficient inactive_stake.balance tv
    else
      match tx.parse_self_type with
      | .error e => .error e
      | .ok ty =>
        match s.active_stake_by_address.find? staker_address with
        | none => .error .invalidForSender
        | some active_stake =>
          match ty with
          | .retireStake =>
            match tx.total_value with
            | .error e => .error e
            | .ok tv => balance_sufficient active_stake.balance tv
          | .unpark =>
            match tx.total_value with
            | .error e => .error e
            | .ok tv =>
              if active_stake.balance ≠ tv then .error .invalidForSender
              else if !s.current_epoch_parking.contains staker_address &&
                  !s.previous_epoch_parking.contains staker_address then
                .error .invalidForSender
              else .ok ()

/-- The `commit_outgoing_transaction` hook (actions/mod.rs, lines 155-178):
runs `check_outgoing_transaction` first, then dispatches to unstake,
retire-sender or unpark-sender. -/
def commit_outgoing_transaction (s : StakingContract) (tx : Transaction)
    (block_height : Nat) :
    Except AccountError (Option ReceiptData) × StakingContract :=
  match s.check_outgoing_transaction tx block_height with
  | .error e => (.error e, s)
  | .ok () =>
    match tx.get_signer with
    | .error e => (.error e, s)
    | .ok staker_address =>
      if tx.sender ≠ tx.recipient then
        match tx.total_value with
        | .error e => (.error e, s)
        | .ok tv =>
          match s.unstake staker_address tv with
          | (.error e, s1) => (.error e, s1)
          | (.ok rc, s1) => (.ok (rc.map (.inactiveStakeR ·)), s1)
      else
        match tx.parse_self_type with
        | .error e => (.error e, s)
        | .ok ty =>
          match ty with
          | .retireStake =>
            match tx.total_value with
            | .error e => (.error e, s)
            | .ok tv =>
              match s.retire_sender_old staker_address tv block_height with
              | (.error e, s1) => (.error e, s1)
              | (.ok rc, s1) => (.ok (rc.map (.activeStakeR ·)), s1)
          | .unpark =>
            match tx.total_value with
            | .error e => (.error e, s)
            | .ok tv =>
              match s.unpark_sender staker_address tv tx.fee with
              | (.error e, s1) => (.error e, s1)
              | (.ok _, s1) => (.ok none, s1)

/-- The `revert_outgoing_transaction` hook (actions/mod.rs, lines
180-207). -/
def revert_outgoing_transaction (s : StakingContract) (tx : Transaction)
    (_block_height : Nat) (receipt : Option ReceiptData) :
    Except AccountError Unit × StakingContract :=
  match tx.get_signer with
  | .error e => (.error e, s)
  | .ok staker_address =>
    if tx.sender ≠ tx.recipient then
      match tx.total_value with
      | .error e => (.error e, s)
      | .ok tv =>
        match receipt with
        | none => s.revert_unstake staker_address tv none
        | some rd =>
          match rd.asInactiveStake with
          | .error e => (.error e, s)
          | .ok r => s.revert_unstake staker_address tv (some r)
    else
      match tx.parse_self_type with
      | .error e => (.error e, s)
      | .ok ty =>
        match ty with
        | .retireStake =>
          match tx.total_value with
          | .error e => (.error e, s)
          | .ok tv =>
            match receipt with
            | none => s.revert_retire_sender_old staker_address tv none
            | some rd =>
              match rd.asActiveStake with
              | .error e => (.error e, s)
              | .ok r => s.revert_retire_sender_old staker_address tv (some r)
        | .unpark =>
          match tx.total_value with
          | .error e => (.error e, s)
          | .ok tv => s.revert_unpark_sender staker_address tv tx.fee

/-- The `check_inherent` hook (actions/mod.rs, lines 211-243): the value
must be zero; a slash needs 20 bytes of data decoding to an address present
in the active-stake or inactive-stake map; a finalize-epoch needs empty
data; reward inherents are rejected with `InvalidForTarget`. -/
def check_inherent (s : StakingContract) (inherent : Inherent)
    (_block_height : Nat) : Except AccountError Unit :=
  if inherent.value ≠ 0 then .error .invalidInherent
  else
    match inherent.ty with
    | .slash =>
      if inherent.data.length ≠ ADDRESS_SIZE then .error .invalidInherent
      else
        match deserializeAddress inherent.data with
        | .error e => .error e
        | .ok staker_address =>
          if !s.active_stake_by_address.contains staker_address &&
              !s.inactive_stake_by_address.contains staker_address then
            .error .invalidInherent
          else .ok ()
    | .finalizeEpoch =>
      if inherent.data ≠ [] then .error .invalidInherent else .ok ()
    | .reward => .error .invalidForTarget

/-- The per-address sweep of the finalize-epoch commit (the loop in
actions/mod.rs, lines 263-274): each address of the old parking set whose
active balance is positive is retired, sender and recipient half, at the
current block height. -/
def finalize_loop (s : StakingContract) (addrs : List Nat)
    (block_height : Nat) : Except AccountError Unit × StakingContract :=
  match addrs with
  | [] => (.ok (), s)
  | a :: rest =>
    let bal := s.get_active_balance a
    if bal > 0 then
      match s.retire_sender_old a bal block_height with
      | (.error e, s1) => (.error e, s1)
      | (.ok _, s1) =>
        match s1.retire_recipient a bal block_height with
        | (.error e, s2) => (.error e, s2)
        | (.ok _, s2) => finalize_loop s2 rest block_height
    else finalize_loop s rest block_height

/-- The `commit_inherent` hook (actions/mod.rs, lines 245-281): checks
first; a slash parks the decoded address and reports whether it was newly
parked; a finalize-epoch rotates the parking sets and sweeps the old one,
producing no receipt. -/
def commit_inherent (s : StakingContract) (inherent : Inherent)
    (block_height : Nat) :
    Except AccountError (Option ReceiptData) × StakingContract :=
  match s.check_inherent inherent block_height with
  | .error e => (.error e, s)
  | .ok () =>
    match inherent.ty with
    | .slash =>
      match deserializeAddress inherent.data with
      | .error e => (.error e, s)
      | .ok staker_address =>
        let newly_slashed := !s.current_epoch_parking.contains staker_address
        let c1 := s.current_epoch_parking.insert staker_address ()
        (.ok (some (.slashR ⟨newly_slashed⟩)),
         { s with current_epoch_parking := c1 })
    | .finalizeEpoch =>
      let old_epoch := s.previous_epoch_parking
      let s1 := { s with current_epoch_parking := ([] : SMap Unit),
                         previous_epoch_parking := s.current_epoch_parking }
      match finalize_loop s1 (old_epoch.map (·.1)) block_height with
      | (.error e, s2) => (.error e, s2)
      | (.ok (), s2) => (.ok none, s2)
    | .reward => (.error .assertFailed, s)

/-- The `revert_inherent` hook (actions/mod.rs, lines 283-306): a slash
revert needs its receipt and removes the address again only when it had
been newly parked; finalize-epoch is never revertible; reward hits the
`unreachable!()` arm. -/
def revert_inherent (s : StakingContract) (inherent : Inherent)
    (_block_height : Nat) (receipt : Option ReceiptData) :
    Except AccountError Unit × StakingContract :=
  match inherent.ty with
  | .slash =>
    match receipt with
    | none => (.error .invalidReceipt, s)
    | some rd =>
      match rd.asSlash with
      | .error e => (.error e, s)
      | .ok r =>
        match deserializeAddress inherent.data with
        | .error e => (.error e, s)
        | .ok staker_address =>
          if r.newly_slashed then
            let has_been_removed := s.current_epoch_parking.contains staker_address
            let c1 := s.current_epoch_parking.erase staker_address
            let s1 := { s with current_epoch_parking := c1 }
            if !has_been_removed then (.error .invalidInherent, s1)
            else (.ok (), s1)
          else (.ok (), s)
  | .finalizeEpoch => (.error .invalidForTarget, s)
  | .reward => (.error .assertFailed, s)

end StakingContract

/-- The `PartialEq` implementation for `StakingContract` (mod.rs, lines
220-224): equality is unconditionally true. -/
def eqStakingContract (_s1 _s2 : StakingContract) : Bool :=
  true

/-- The `Ord` implementation for `StakingContract` (mod.rs, lines 234-238):
comparison is unconditionally `Equal`. -/
def cmpStakingContract (_s1 _s2 : StakingContract) : Ordering :=
  .eq

/-! Invariants and well-formedness predicates. -/

namespace StakingContract

/-- Sum of the old-shape active stake balances. -/
def sumActiveStakes (s : StakingContract) : Nat :=
  SMap.sumBy (·.balance) s.active_stake_by_address

/-- Sum of the inactive stake balances. -/
def sumInactiveStakes (s : StakingContract) : Nat :=
  SMap.sumBy (·.balance) s.inactive_stake_by_address

/-- Sum of the active validator balances. -/
def sumActiveValidators (s : StakingContract) : Nat :=
  SMap.sumBy (·.balance) s.active_validators_by_key

/-- Sum of the inactive validator balances. -/
def sumInactiveValidators (s : StakingContract) : Nat :=
  SMap.sumBy (fun iv => iv.validator.balance) s.inactive_validators_by_key

/-- The master balance invariant in the validator-centric shape: the
contract balance equals the sum of every validator balance (active and
inactive) plus the sum of all inactive stake balances. -/
def validatorBalanceInvariant (s : StakingContract) : Bool :=
  s.balance == s.sumActiveValidators + s.sumInactiveValidators +
    s.sumInactiveStakes

/-- The master balance invariant in the stake-centric shape read by the
dispatch: the contract balance equals the sum of the active stake balances
plus the sum of the inactive stake balances. -/
def balanceInvariant (s : StakingContract) : Bool :=
  s.balance == s.sumActiveStakes + s.sumInactiveStakes

/-- Structural well-formedness of a state: canonical (strictly key-sorted)
containers, no zero-balance stake entries, and coin fields within bounds.
All of these hold for every reachable state. -/
def WfContract (s : StakingContract) : Bool :=
  SMap.Wf s.active_stake_by_address &&
  SMap.Wf s.inactive_stake_by_address &&
  SMap.Wf s.current_epoch_parking &&
  SMap.Wf s.previous_epoch_parking &&
  decide (s.balance ≤ MAX_COIN) &&
  s.active_stake_by_address.all
    (fun p => !(p.2.balance == 0) && decide (p.2.balance ≤ MAX_COIN)) &&
  s.inactive_stake_by_address.all
    (fun p => !(p.2.balance == 0) && decide (p.2.balance ≤ MAX_COIN))

end StakingContract

/-- The operations of the dispatch layer: an incoming transaction, an
outgoing transaction (self transactions fall into both hooks, one half
each), or an inherent. -/
inductive DispatchOp where
  | incoming (tx : Transaction)
  | outgoing (tx : Transaction)
  | inherentOp (i : Inherent)
  deriving DecidableEq

/-- The operations covered by the commit/revert symmetry claim: all
transactions, and among inherents only Slash (finalize-epoch is explicitly
not revertible). -/
def DispatchOp.inScope : DispatchOp → Bool
  | .inherentOp i => i.ty == .slash
  | _ => true

/-- Commit an operation through the corresponding hook. -/
def commitDispatch (s : StakingContract) (op : DispatchOp)
    (block_height : Nat) :
    Except AccountError (Option ReceiptData) × StakingContract :=
  match op with
  | .incoming tx => s.commit_incoming_transaction tx block_height
  | .outgoing tx => s.commit_outgoing_transaction tx block_height
  | .inherentOp i => s.commit_inherent i block_height

/-- Revert an operation through the corresponding hook. -/
def revertDispatch (s : StakingContract) (op : DispatchOp)
    (block_height : Nat) (receipt : Option ReceiptData) :
    Except AccountError Unit × StakingContract :=
  match op with
  | .incoming tx => s.revert_incoming_transaction tx block_height receipt
  | .outgoing tx => s.revert_outgoing_transaction tx block_height receipt
  | .inherentOp i => s.revert_inherent i block_height receipt

/-! Canonical serialization of the contract state (mod.rs, lines 115-216).
Primitive encodings (fixed-width big-endian integers, 0/1-tagged options,
u32-length-prefixed collections) follow the documented beserial sizes; the
beserial crate itself is not in the sources. -/

/-- Fixed-width big-endian encoding of a natural number. -/
def natToBEBytes : Nat → Nat → List Nat
  | 0, _ => []
  | w + 1, n => (n / 256 ^ w % 256) :: natToBEBytes w (n % 256 ^ w)

/-- Serialize a coin (u64). -/
def serCoin (c : Nat) : List Nat := natToBEBytes 8 c

/-- Serialize a u32 length prefix. -/
def serU32 (n : Nat) : List Nat := natToBEBytes 4 n

/-- Serialize an address (20 bytes). -/
def serAddress (a : Nat) : List Nat := natToBEBytes 20 a

/-- Serialize a compressed BLS public key (96 bytes). -/
def serBlsKey (k : Nat) : List Nat := natToBEBytes 96 k

/-- Serialize an option with a 0/1 tag byte. -/
def serOption (f : α → List Nat) : Option α → List Nat
  | none => [0]
  | some x => 1 :: f x

/-- Serialize an inactive stake (balance, then retire time). -/
def serInactiveStake (st : InactiveStake) : List Nat :=
  serCoin st.balance ++ serU32 st.retire_time

/-- Serialize an active stake record with its staker address. -/
def serActiveStake (staker_address : Nat) (a : ActiveStake) : List Nat :=
  serAddress staker_address ++ serCoin a.balance ++ serBlsKey a.validator_key ++
    serOption serAddress a.reward_address

/-- Insert into a list sorted by a boolean order. -/
def insertSortedBy (le : α → α → Bool) (x : α) : List α → List α
  | [] => [x]
  | y :: r => if le x y then x :: y :: r else y :: insertSortedBy le x r

/-- Insertion sort by a boolean order. -/
def sortBy (le : α → α → Bool) (l : List α) : List α :=
  l.foldr (insertSortedBy le) []

/-- The comparison used for the remaining inactive stakes (address, then
balance, then retire time). -/
def inactiveStakeLe (p q : Nat × InactiveStake) : Bool :=
  decide (p.1 < q.1) ||
    (decide (p.1 = q.1) &&
      (decide (p.2.balance < q.2.balance) ||
        (decide (p.2.balance = q.2.balance) &&
          decide (p.2.retire_time ≤ q.2.retire_time))))

namespace StakingContract

/-- The `Serialize for StakingContract` implementation (mod.rs, lines
115-148): balance, then the active stakes (each with the inactive stake of
the same address inline), then the remaining inactive stakes sorted by
(address, balance, retire time), then both parking sets, collections
u32-length-prefixed. -/
def serializeContract (s : StakingContract) : List Nat :=
  let actives := s.active_stake_by_address
  let remaining := sortBy inactiveStakeLe
    (s.inactive_stake_by_address.filter
      (fun p => !s.active_stake_by_address.contains p.1))
  serCoin s.balance ++
  serU32 actives.length ++
  (actives.flatMap fun p =>
    serActiveStake p.1 p.2 ++
      serOption serInactiveStake (s.inactive_stake_by_address.find? p.1)) ++
  serU32 remaining.length ++
  (remaining.flatMap fun p => serAddress p.1 ++ serInactiveStake p.2) ++
  serU32 s.current_epoch_parking.length ++
  (s.current_epoch_parking.flatMap fun p => serAddress p.1) ++
  serU32 s.previous_epoch_parking.length ++
  (s.previous_epoch_parking.flatMap fun p => serAddress p.1)

end StakingContract

/-- Read a fixed number of bytes. -/
def readBytes (w : Nat) (bs : List Nat) : Option (List Nat × List Nat) :=
  if w ≤ bs.length then some (bs.take w, bs.drop w) else none

/-- Parse a fixed-width big-endian natural number. -/
def deserNat (w : Nat) (bs : List Nat) : Option (Nat × List Nat) :=
  (readBytes w bs).map fun p => (bytesToNat p.1, p.2)

/-- Parse an option with a 0/1 tag byte. -/
def deserOption (f : List Nat → Option (α × List Nat)) :
    List Nat → Option (Option α × List Nat)
  | 0 :: r => some (none, r)
  | 1 :: r => (f r).map fun p => (some p.1, p.2)
  | _ => none

/-- Parse an inactive stake. -/
def deserInactiveStake (bs : List Nat) : Option (InactiveStake × List Nat) :=
  match deserNat 8 bs with
  | none => none
  | some (b, r1) =>
    match deserNat 4 r1 with
    | none => none
    | some (rt, r2) => some (⟨b, rt⟩, r2)

/-- Parse an active stake record with its staker address. -/
def deserActiveStake (bs : List Nat) :
    Option ((Nat × ActiveStake) × List Nat) :=
  match deserNat 20 bs with
  | none => none
  | some (addr, r1) =>
    match deserNat 8 r1 with
    | none => none
    | some (b, r2) =>
      match deserNat 96 r2 with
      | none => none
      | some (k, r3) =>
        match deserOption (deserNat 20) r3 with
        | none => none
        | some (rw, r4) => some ((addr, ⟨b, k, rw⟩), r4)

/-- The active-stake loop of `Deserialize for StakingContract` (mod.rs,
lines 185-195): each iteration reads an active stake and an optional inline
inactive stake and inserts them into the accumulated maps. -/
def deserActives : Nat → List Nat → SMap ActiveStake → SMap InactiveStake →
    Option ((SMap ActiveStake × SMap InactiveStake) × List Nat)
  | 0, bs, act, inact => some ((act, inact), bs)
  | n + 1, bs, act, inact =>
    match deserActiveStake bs with
    | none => none
    | some ((addr, a), r1) =>
      match deserOption deserInactiveStake r1 with
      | none => none
      | some (oinact, r2) =>
        let act1 := act.insert addr a
        let inact1 := match oinact with
          | some st => inact.insert addr st
          | none => inact
        deserActives n r2 act1 inact1

/-- The remaining-inactive-stake loop of the deserializer (mod.rs, lines
197-202). -/
def deserRemaining : Nat → List Nat → SMap InactiveStake →
    Option (SMap InactiveStake × List Nat)
  | 0, bs, inact => some (inact, bs)
  | n + 1, bs, inact =>
    match deserNat 20 bs with
    | none => none
    | some (addr, r1) =>
      match deserInactiveStake r1 with
      | none => none
      | some (st, r2) => deserRemaining n r2 (inact.insert addr st)

/-- A length-prefixed parking set body (mod.rs, lines 204-205). -/
def deserParking : Nat → List Nat → SMap Unit →
    Option (SMap Unit × List Nat)
  | 0, bs, acc => some (acc, bs)
  | n + 1, bs, acc =>
    match deserNat 20 bs with
    | none => none
    | some (addr, r1) => deserParking n r1 (acc.insert addr ())

/-- The `Deserialize for StakingContract` implementation (mod.rs, lines
176-216).  The deserialized struct carries only the stake-centric fields;
the validator maps of the record come back empty. -/
def deserializeContract (bs : List Nat) :
    Option (StakingContract × List Nat) :=
  match deserNat 8 bs with
  | none => none
  | some (balance, r1) =>
    match deserNat 4 r1 with
    | none => none
    | some (nact, r2) =>
      match deserActives nact r2 [] [] with
      | none => none
      | some ((act, inact0), r3) =>
        match deserNat 4 r3 with
        | none => none
        | some (nrem, r4) =>
          match deserRemaining nrem r4 inact0 with
          | none => none
          | some (inact, r5) =>
            match deserNat 4 r5 with
            | none => none
            | some (ncur, r6) =>
              match deserParking ncur r6 [] with
              | none => none
              | some (cur, r7) =>
                match deserNat 4 r7 with
                | none => none
                | some (nprev, r8) =>
                  match deserParking nprev r8 [] with
                  | none => none
                  | some (prev, r9) =>
                    some (⟨balance, [], [], act, inact, cur, prev⟩, r9)

/-- Bounds making a state serializable with the fixed-width encodings:
every coin fits in a u64, every address in 20 bytes, every key in 96 bytes,
every retire time in a u32 and every collection length in a u32. -/
def StakingContract.SerBounds (s : StakingContract) : Bool :=
  decide (s.balance < 256 ^ 8) &&
  decide (s.active_stake_by_address.length < 256 ^ 4) &&
  decide (s.inactive_stake_by_address.length < 256 ^ 4) &&
  decide (s.current_epoch_parking.length < 256 ^ 4) &&
  decide (s.previous_epoch_parking.length < 256 ^ 4) &&
  s.active_stake_by_address.all (fun p =>
    decide (p.1 < 256 ^ 20) && decide (p.2.balance < 256 ^ 8) &&
    decide (p.2.validator_key < 256 ^ 96) &&
    (p.2.reward_address.all fun a => decide (a < 256 ^ 20))) &&
  s.inactive_stake_by_address.all (fun p =>
    decide (p.1 < 256 ^ 20) && decide (p.2.balance < 256 ^ 8) &&
    decide (p.2.retire_time < 256 ^ 4)) &&
  s.current_epoch_parking.all (fun p => decide (p.1 < 256 ^ 20)) &&
  s.previous_epoch_parking.all (fun p => decide (p.1 < 256 ^ 20))

/-! Validator selection (mod.rs, lines 74-107). -/

/-- A slot entry: validator key, staker address, reward address, as pushed
into the `SlotsBuilder`. -/
abbrev Slot := Nat × Nat × Option Nat

/-- Modelled from the spec: the use-case tag for validator selection that
seeds the VRF rng (the vrf crate is not in the sources). -/
def VRF_USECASE_VALIDATOR_SELECTION : Nat := 1

/-- Modelled from the spec: the deterministic rng state derived from the
seed, use case and nonce. -/
structure VrfRng where
  state : Nat
  deriving DecidableEq

/-- Modelled from the spec: seeding the rng from `(seed, use_case, nonce)`. -/
def vrfRng (seed use_case nonce : Nat) : VrfRng :=
  ⟨(seed * 1000003 + use_case * 65537 + nonce + 1) % 2 ^ 64⟩

/-- Modelled from the spec: one rng draw (a 64-bit linear-congruential
step); any deterministic generator makes the selection claims meaningful. -/
def VrfRng.next (r : VrfRng) : Nat × VrfRng :=
  (r.state, ⟨(r.state * 6364136223846793005 + 1442695040888963407) % 2 ^ 64⟩)

/-- Pick the index of the weight bucket containing `x`. -/
def pickIndex (weights : List Nat) (x : Nat) : Nat :=
  match weights with
  | [] => 0
  | w :: rest => if x < w then 0 else 1 + pickIndex rest (x - w)

/-- Modelled from the spec: one alias-method sample, a deterministic
function of the weight table and the rng draw, distributing draws in
proportion to the weights. -/
def aliasSample (weights : List Nat) (rng : VrfRng) : Nat × VrfRng :=
  let (x, rng1) := rng.next
  let total := weights.sum
  if total = 0 then (x % max 1 weights.length, rng1)
  else (pickIndex weights (x % total), rng1)

/-- A default slot source used for the out-of-range index access of the
source (indexing `potential_validators` panics on an empty table). -/
def defaultActiveStake : Nat × ActiveStake := (0, ⟨0, 0, none⟩)

/-- The sampling loop of `select_validators`: `n` draws from the alias
table, each emitting the key, staker address and reward address of the
sampled active stake. -/
def selectLoop (pv : SMap ActiveStake) (weights : List Nat) :
    Nat → VrfRng → List Slot
  | 0, _ => []
  | n + 1, rng =>
    let (idx, rng1) := aliasSample weights rng
    let a := pv.getD idx defaultActiveStake
    (a.2.validator_key, a.1, a.2.reward_address) :: selectLoop pv weights n rng1

/-- The `select_validators` method (mod.rs, lines 74-107): enumerate the
active stakes once, build the weight vector from their balances, seed the
rng from the VRF seed, and sample `SLOTS` slots through the alias table. -/
def StakingContract.select_validators (s : StakingContract) (seed : Nat) :
    List Slot :=
  let potential_validators := s.active_stake_by_address
  let weights := potential_validators.map (fun p => p.2.balance)
  let rng := vrfRng seed VRF_USECASE_VALIDATOR_SELECTION 0
  selectLoop potential_validators weights SLOTS rng

/-! Concrete states used by counterexamples and witnesses. -/

/-- A validator with key 5, reward address 3 and no stake. -/
def exValidator : Validator := ⟨0, 3, 5, []⟩

/-- A contract holding only the validator with key 5. -/
def exC2S0 : StakingContract := ⟨0, [(5, exValidator)], [], [], [], [], []⟩

/-- The state after staking 5 coins from address 2 with validator 5. -/
def exC2S1 : StakingContract := (exC2S0.stake 2 5 5).2

/-- The state after reverting that stake. -/
def exC2S2 : StakingContract := (exC2S1.revert_stake 2 5 5).2

/-- A well-formed contract whose only entry is one inactive stake of 1 coin
at address 7 (retire time 0). -/
def exSlashState : StakingContract := ⟨1, [], [], [], [(7, ⟨1, 0⟩)], [], []⟩

/-- Twenty bytes decoding to address 7. -/
def exSlashData : List Nat := List.replicate 19 0 ++ [7]

/-- A slash inherent against address 7. -/
def exSlashInherent : Inherent := ⟨.slash, 0, exSlashData⟩

/-- The state after committing `exSlashInherent` on `exSlashState`. -/
def exSlashState1 : StakingContract :=
  (exSlashState.commit_inherent exSlashInherent 0).2

/-- A contract violating the balance invariant: balance 5 against an
inactive stake of 10 at address 7. -/
def exC3State : StakingContract := ⟨5, [], [], [], [(7, ⟨10, 0⟩)], [], []⟩

/-- An unstake transaction of total value 10 signed by address 7. -/
def exUnstakeTx : Transaction := ⟨1, 2, 9, 1, .malformed, some 7⟩

/-- A contract violating the no-zero-entries invariant: one inactive stake
entry of balance 0 at address 7. -/
def exC1State : StakingContract := ⟨0, [], [], [], [(7, ⟨0, 5⟩)], [], []⟩

/-- A retire self transaction of value 1 signed by address 7. -/
def exC1Tx : Transaction := ⟨4, 4, 1, 0, .selfData .retireStake, some 7⟩

/-- A well-formed contract satisfying the balance invariant with one
inactive stake of 10 at address 7. -/
def exC6State : StakingContract := ⟨10, [], [], [], [(7, ⟨10, 0⟩)], [], []⟩

/-- A contract exercising every section of the serializer: one active
stake, an inline inactive stake, a remaining inactive stake, and one parked
address. -/
def exC8State : StakingContract :=
  ⟨5, [], [], [(2, ⟨3, 9, some 4⟩)], [(2, ⟨1, 0⟩), (6, ⟨1, 7⟩)], [(6, ())], []⟩

/-! Theorems. -/

/-- Claim C10: for every pair of staking-contract states, the source
`PartialEq` returns true and the source `Ord` returns `Equal`, so comparing
two contract states never distinguishes them. -/
theorem staking_contract_eq_always_true (s1 s2 : StakingContract) :
    eqStakingContract s1 s2 = true ∧ cmpStakingContract s1 s2 = Ordering.eq :=
  ⟨rfl, rfl⟩

/-- Claim C4: for every state, block height, receipt, value and data,
reverting a finalize-epoch inherent fails with `InvalidForTarget` and
leaves the state unchanged. -/
theorem revert_finalize_epoch_fails (s : StakingContract) (value : Nat)
    (data : List Nat) (block_height : Nat) (receipt : Option ReceiptData) :
    s.revert_inherent ⟨.finalizeEpoch, value, data⟩ block_height receipt =
      (.error .invalidForTarget, s) :=
  rfl

/-- Claim C2 (code bug): on a contract satisfying the master balance
invariant, committing a stake of 5 coins and then reverting it with the
same arguments both succeed, yet the invariant fails afterwards: the
source `revert_stake` subtracts the value from the contract balance and
the staker entry but forgets `validator.balance`, which its dual `stake`
incremented. -/
theorem revert_stake_breaks_balance_invariant :
    exC2S0.validatorBalanceInvariant = true ∧
    (exC2S0.stake 2 5 5).1 = .ok () ∧
    exC2S1.validatorBalanceInvariant = true ∧
    (exC2S1.revert_stake 2 5 5).1 = .ok () ∧
    exC2S2.validatorBalanceInvariant = false ∧
    exC2S2.balance = 0 ∧ exC2S2.sumActiveValidators = 5 := by
  refine ⟨rfl, rfl, rfl, rfl, rfl, rfl, rfl⟩

/-- Claim C5, counterexample: a slash inherent whose decoded address is
present in the inactive-stake map but in neither validator map passes
`check_inherent`, refuting the claim that the decoded key must be present
in the active or inactive validator map. -/
theorem slash_check_ignores_validator_maps :
    exSlashState.check_inherent exSlashInherent 0 = .ok () ∧
    exSlashState.active_validators_by_key.contains 7 = false ∧
    exSlashState.inactive_validators_by_key.contains 7 = false ∧
    deserializeAddress exSlashInherent.data = .ok 7 := by
  refine ⟨?_, rfl, rfl, ?_⟩ <;> decide

/-- Claim C7, counterexample: slashing an address that only has inactive
stake succeeds and parks it, so the parking set then contains a key that is
not in the active validator map (nor in the active-stake map), refuting
the parking-subset invariant. -/
theorem slash_parks_key_outside_active_maps :
    (exSlashState.commit_inherent exSlashInherent 0).1 =
      .ok (some (.slashR ⟨true⟩)) ∧
    exSlashState1.current_epoch_parking.contains 7 = true ∧
    exSlashState1.active_validators_by_key.contains 7 = false ∧
    exSlashState1.active_stake_by_address.contains 7 = false := by
  refine ⟨?_, ?_, rfl, rfl⟩ <;> decide

/-- Claim C3, counterexample: on a state violating the master balance
invariant (balance 5, one inactive stake of 10), an unstake commit passes
`check_outgoing_transaction`, removes the inactive entry, then fails in the
balance subtraction - returning an error with the state already mutated. -/
theorem unstake_commit_mutates_before_error :
    exC3State.balanceInvariant = false ∧
    (exC3State.commit_outgoing_transaction exUnstakeTx 1000).1 =
      .error (.insufficientFunds 10 5) ∧
    (exC3State.commit_outgoing_transaction exUnstakeTx 1000).2 ≠ exC3State ∧
    (exC3State.commit_outgoing_transaction exUnstakeTx
      1000).2.inactive_stake_by_address = [] := by
  refine ⟨rfl, ?_, ?_, rfl⟩ <;> decide

/-- Claim C1, counterexample: on a state violating the no-zero-entries
invariant (an inactive stake entry of balance 0), committing a retire self
transaction of value 1 succeeds with a receipt, but reverting the resulting
state with that same receipt fails with `InvalidForRecipient` instead of
restoring the initial state. -/
theorem commit_revert_asymmetric_on_zero_entry :
    (commitDispatch exC1State (.incoming exC1Tx) 100).1 =
      .ok (some (.inactiveStakeR ⟨5⟩)) ∧
    (revertDispatch (commitDispatch exC1State (.incoming exC1Tx) 100).2
        (.incoming exC1Tx) 100 (some (.inactiveStakeR ⟨5⟩))).1 =
      .error .invalidForRecipient := by
  refine ⟨?_, ?_⟩ <;> decide

/-- Claim C6: for every state and non-self outgoing (unstake) transaction
whose proof yields a signer, `check_outgoing_transaction` succeeds only if
the signer has an inactive-stake entry, the height has reached
`macro_block_after(retire_time) + UNSTAKING_DELAY`, and the entry balance
covers the total value; a missing entry or an unelapsed delay yields
`InvalidForSender`. -/
theorem check_outgoing_unstake_preconditions (s : StakingContract)
    (tx : Transaction) (block_height : Nat) (signer : Nat)
    (hsig : tx.signer = some signer) (hns : tx.sender ≠ tx.recipient) :
    (s.check_outgoing_transaction tx block_height = .ok () →
      ∃ st, s.inactive_stake_by_address.find? signer = some st ∧
        macro_block_after st.retire_time + UNSTAKING_DELAY ≤ block_height ∧
        ∃ tv, tx.total_value = .ok tv ∧ tv ≤ st.balance) ∧
    (s.inactive_stake_by_address.find? signer = none →
      s.check_outgoing_transaction tx block_height = .error .invalidForSender) ∧
    (∀ st, s.inactive_stake_by_address.find? signer = some st →
      block_height < macro_block_after st.retire_time + UNSTAKING_DELAY →
      s.check_outgoing_transaction tx block_height =
        .error .invalidForSender) := by
  simp only [StakingContract.check_outgoing_transaction, Transaction.get_signer,
    hsig, if_pos hns]
  refine ⟨?_, ?_, ?_⟩
  · intro hok
    split at hok
    next hfind => exact Except.noConfusion hok
    next st hfind =>
      split at hok
      next hd => exact Except.noConfusion hok
      next hd =>
        split at hok
        next e htv => exact Except.noConfusion hok
        next tv htv =>
          simp only [balance_sufficient] at hok
          split at hok
          next hle => exact ⟨st, hfind, by omega, tv, htv, hle⟩
          next hle => exact Except.noConfusion hok
  · intro hnone
    simp only [hnone]
  · intro st hfind hd
    simp only [hfind, if_pos hd]

/-- Witness for claim C6: concrete state with an inactive stake of 10 at
address 7, an unstake of total value 10 at height 1000. -/
theorem check_outgoing_unstake_preconditions_witness :
    exUnstakeTx.signer = some 7 ∧ exUnstakeTx.sender ≠ exUnstakeTx.recipient ∧
    ((exC6State.check_outgoing_transaction exUnstakeTx 1000 = .ok () →
      ∃ st, exC6State.inactive_stake_by_address.find? 7 = some st ∧
        macro_block_after st.retire_time + UNSTAKING_DELAY ≤ 1000 ∧
        ∃ tv, exUnstakeTx.total_value = .ok tv ∧ tv ≤ st.balance) ∧
    (exC6State.inactive_stake_by_address.find? 7 = none →
      exC6State.check_outgoing_transaction exUnstakeTx 1000 =
        .error .invalidForSender) ∧
    (∀ st, exC6State.inactive_stake_by_address.find? 7 = some st →
      1000 < macro_block_after st.retire_time + UNSTAKING_DELAY →
      exC6State.check_outgoing_transaction exUnstakeTx 1000 =
        .error .invalidForSender)) :=
  ⟨rfl, by decide,
   check_outgoing_unstake_preconditions exC6State exUnstakeTx 1000 7 rfl
     (by decide)⟩

/-- Claim C5 (amended): `check_inherent` on a slash inherent succeeds if
and only if the value is zero, the data has exactly the 20-byte address
size, and the decoded address is present in the active-stake or
inactive-stake map (the validator maps play no part); every failure is
`InvalidInherent`.  A successful commit inserts the address into
`current_epoch_parking` and returns a `newly_slashed` receipt that is true
exactly when the address was not already parked. -/
theorem slash_check_iff_and_commit (s : StakingContract) (i : Inherent)
    (block_height : Nat) (hty : i.ty = .slash) :
    (s.check_inherent i block_height = .ok () ↔
      (i.value = 0 ∧ i.data.length = ADDRESS_SIZE ∧
        (s.active_stake_by_address.contains (bytesToNat i.data) = true ∨
         s.inactive_stake_by_address.contains (bytesToNat i.data) = true))) ∧
    (∀ e, s.check_inherent i block_height = .error e →
      e = .invalidInherent) ∧
    (∀ r s1, s.commit_inherent i block_height = (.ok r, s1) →
      r = some (.slashR
        ⟨!s.current_epoch_parking.contains (bytesToNat i.data)⟩) ∧
      s1 = { s with current_epoch_parking :=
        s.current_epoch_parking.insert (bytesToNat i.data) () }) := by
  have hcheck : s.check_inherent i block_height =
      (if i.value ≠ 0 then .error .invalidInherent
       else if i.data.length ≠ ADDRESS_SIZE then .error .invalidInherent
       else
         match deserializeAddress i.data with
         | .error e => .error e
         | .ok a =>
           if !s.active_stake_by_address.contains a &&
              !s.inactive_stake_by_address.contains a then
             .error .invalidInherent
           else .ok ()) := by
    simp only [StakingContract.check_inherent, hty]
  by_cases hval : i.value = 0
  · by_cases hlen : i.data.length = ADDRESS_SIZE
    · have hdeser : deserializeAddress i.data = .ok (bytesToNat i.data) := by
        simp only [deserializeAddress, if_pos hlen]
      rw [hdeser] at hcheck
      simp only [hval, hlen, if_neg (by simp : ¬(0 : Nat) ≠ 0),
        if_neg (show ¬ADDRESS_SIZE ≠ ADDRESS_SIZE from by simp)] at hcheck
      by_cases hmem : !s.active_stake_by_address.contains (bytesToNat i.data) &&
          !s.inactive_stake_by_address.contains (bytesToNat i.data)
      · rw [if_pos hmem] at hcheck
        refine ⟨?_, ?_, ?_⟩
        · rw [hcheck]
          constructor
          · intro hh; exact Except.noConfusion hh
          · rintro ⟨-, -, hor⟩
            simp only [Bool.and_eq_true, Bool.not_eq_true'] at hmem
            rcases hor with hh | hh
            · rw [hmem.1] at hh; cases hh
            · rw [hmem.2] at hh; cases hh
        · intro e he
          rw [hcheck] at he
          exact (Except.error.inj he).symm
        · intro r s1 hc
          simp only [StakingContract.commit_inherent, hcheck] at hc
          exact Except.noConfusion (congrArg Prod.fst hc)
      · rw [if_neg hmem] at hcheck
        refine ⟨?_, ?_, ?_⟩
        · rw [hcheck]
          simp only [Bool.and_eq_true, Bool.not_eq_true', not_and_or] at hmem
          refine ⟨fun _ => ⟨hval, hlen, ?_⟩, fun _ => rfl⟩
          rcases hmem with hh | hh
          · exact Or.inl (by simpa using hh)
          · exact Or.inr (by simpa using hh)
        · intro e he
          rw [hcheck] at he
          exact Except.noConfusion he
        · intro r s1 hc
          simp only [StakingContract.commit_inherent, hcheck, hty, hdeser] at hc
          obtain ⟨h1, h2⟩ := Prod.mk.injEq .. ▸ hc
          exact ⟨(Except.ok.inj h1).symm, h2.symm⟩
    · have hn : (i.data.length ≠ ADDRESS_SIZE) := hlen
      simp only [if_neg (show ¬i.value ≠ 0 from by simpa using hval),
        if_pos hn] at hcheck
      refine ⟨?_, ?_, ?_⟩
      · rw [hcheck]
        constructor
        · intro hh; exact Except.noConfusion hh
        · rintro ⟨-, hl, -⟩; exact absurd hl hlen
      · intro e he
        rw [hcheck] at he
        exact (Except.error.inj he).symm
      · intro r s1 hc
        simp only [StakingContract.commit_inherent, hcheck] at hc
        exact Except.noConfusion (congrArg Prod.fst hc)
  · have hv : i.value ≠ 0 := hval
    rw [if_pos hv] at hcheck
    refine ⟨?_, ?_, ?_⟩
    · rw [hcheck]
      constructor
      · intro hh; exact Except.noConfusion hh
      · rintro ⟨hv0, -, -⟩; exact absurd hv0 hval
    · intro e he
      rw [hcheck] at he
      exact (Except.error.inj he).symm
    · intro r s1 hc
      simp only [StakingContract.commit_inherent, hcheck] at hc
      exact Except.noConfusion (congrArg Prod.fst hc)

/-- Witness for claim C5: the slash inherent against address 7 on the
concrete state with inactive stake at 7. -/
theorem slash_check_iff_and_commit_witness :
    exSlashInherent.ty = InherentType.slash ∧
    exSlashState.check_inherent exSlashInherent 0 = .ok () :=
  ⟨rfl, ((slash_check_iff_and_commit exSlashState exSlashInherent 0
      rfl).1).mpr (by decide)⟩

/-- Helper: a successful slash check implies zero value, 20-byte data, and
membership of the decoded address in one of the stake maps. -/
theorem slash_check_ok_spec (s : StakingContract) (i : Inherent)
    (block_height : Nat) (hty : i.ty = .slash)
    (hok : s.check_inherent i block_height = .ok ()) :
    i.value = 0 ∧ i.data.length = ADDRESS_SIZE ∧
    (s.active_stake_by_address.contains (bytesToNat i.data) = true ∨
     s.inactive_stake_by_address.contains (bytesToNat i.data) = true) := by
  simp only [StakingContract.check_inherent, hty] at hok
  split at hok
  next hval => exact Except.noConfusion hok
  next hval =>
    split at hok
    next hlen => exact Except.noConfusion hok
    next hlen =>
      have hlen1 : i.data.length = ADDRESS_SIZE := not_not.mp hlen
      have hdeser : deserializeAddress i.data = .ok (bytesToNat i.data) := by
        simp [deserializeAddress, hlen1]
      refine ⟨not_not.mp hval, hlen1, ?_⟩
      split at hok
      next e heq =>
        rw [hdeser] at heq
        exact Except.noConfusion heq
      next a heq =>
        rw [hdeser] at heq
        have ha : a = bytesToNat i.data := (Except.ok.inj heq).symm
        subst ha
        split at hok
        next hmem => exact Except.noConfusion hok
        next hmem =>
          simp only [Bool.and_eq_true, Bool.not_eq_true', not_and_or] at hmem
          rcases hmem with hh | hh
          · exact Or.inl (by simpa using hh)
          · exact Or.inr (by simpa using hh)

/-- Helper: characterization of a successful slash commit - the decoded
address is in a stake map, the receipt records whether it was newly parked,
and the post state only gains the parking entry. -/
theorem slash_commit_spec (s : StakingContract) (i : Inherent)
    (block_height : Nat) (r : Option ReceiptData) (s1 : StakingContract)
    (hty : i.ty = .slash)
    (hc : s.commit_inherent i block_height = (.ok r, s1)) :
    (s.active_stake_by_address.contains (bytesToNat i.data) = true ∨
     s.inactive_stake_by_address.contains (bytesToNat i.data) = true) ∧
    r = some (.slashR
      ⟨!s.current_epoch_parking.contains (bytesToNat i.data)⟩) ∧
    s1 = { s with current_epoch_parking :=
      s.current_epoch_parking.insert (bytesToNat i.data) () } := by
  have hex : ∃ u, s.check_inherent i block_height = .ok u := by
    cases hchk2 : s.check_inherent i block_height with
    | ok u => exact ⟨u, rfl⟩
    | error e =>
      simp only [StakingContract.commit_inherent, hchk2] at hc
      exact Except.noConfusion (congrArg Prod.fst hc)
  obtain ⟨u, hchk⟩ := hex
  cases u
  obtain ⟨hval, hlen, hmem⟩ := slash_check_ok_spec s i block_height hty hchk
  have hdeser : deserializeAddress i.data = .ok (bytesToNat i.data) := by
    simp [deserializeAddress, hlen]
  simp only [StakingContract.commit_inherent, hchk, hty, hdeser] at hc
  refine ⟨hmem, ?_, ?_⟩
  · exact (Except.ok.inj (congrArg Prod.fst hc)).symm
  · exact (congrArg Prod.snd hc).symm

/-- Claim C7 (amended): after a successful slash commit the parking set is
the old one plus the decoded address, and that address is a key of the
active-stake or inactive-stake map of the resulting state; parking is not
in general a subset of the active validator map. -/
theorem slash_parking_key_in_stake_maps (s : StakingContract) (i : Inherent)
    (block_height : Nat) (r : Option ReceiptData) (s1 : StakingContract)
    (hty : i.ty = .slash)
    (hc : s.commit_inherent i block_height = (.ok r, s1)) :
    s1.current_epoch_parking =
      s.current_epoch_parking.insert (bytesToNat i.data) () ∧
    (s1.active_stake_by_address.contains (bytesToNat i.data) = true ∨
     s1.inactive_stake_by_address.contains (bytesToNat i.data) = true) := by
  obtain ⟨hmem, -, hs1⟩ := slash_commit_spec s i block_height r s1 hty hc
  subst hs1
  exact ⟨rfl, hmem⟩

/-- Witness for claim C7 (amended): the concrete slash against address 7. -/
theorem slash_parking_key_in_stake_maps_witness :
    exSlashInherent.ty = InherentType.slash ∧
    exSlashState.commit_inherent exSlashInherent 0 =
      (.ok (some (.slashR ⟨true⟩)), exSlashState1) ∧
    (exSlashState1.current_epoch_parking =
      exSlashState.current_epoch_parking.insert (bytesToNat exSlashInherent.data) () ∧
    (exSlashState1.active_stake_by_address.contains
      (bytesToNat exSlashInherent.data) = true ∨
     exSlashState1.inactive_stake_by_address.contains
      (bytesToNat exSlashInherent.data) = true)) :=
  ⟨rfl, by decide,
   slash_parking_key_in_stake_maps exSlashState exSlashInherent 0
     (some (.slashR ⟨true⟩)) exSlashState1 rfl (by decide)⟩

namespace SMap

theorem contains_eq_false {m : SMap α} {k : Nat}
    (h : contains m k = false) : m.find? k = none := by
  unfold contains at h
  cases hf : m.find? k with
  | none => rfl
  | some v => rw [hf] at h; cases h

theorem contains_eq_true {m : SMap α} {k : Nat}
    (h : contains m k = true) : ∃ v, m.find? k = some v := by
  unfold contains at h
  cases hf : m.find? k with
  | none => rw [hf] at h; cases h
  | some v => exact ⟨v, rfl⟩

theorem contains_of_find?_some {m : SMap α} {k : Nat} {v : α}
    (h : m.find? k = some v) : contains m k = true := by
  unfold contains
  rw [h]
  rfl

theorem le_sumBy_of_find?_some {m : SMap α} {k : Nat} {v : α} (f : α → Nat)
    (h : m.find? k = some v) : f v ≤ sumBy f m := by
  induction m with
  | nil => cases h
  | cons p rest ih =>
    obtain ⟨k1, v1⟩ := p
    simp only [find?] at h
    by_cases h1 : k1 = k
    · rw [if_pos h1] at h
      cases h
      simp only [sumBy]
      omega
    · rw [if_neg h1] at h
      have := ih h
      simp only [sumBy]
      omega

theorem all_of_mem_imp {l : SMap α} {p : Nat × α → Bool}
    (h : ∀ q ∈ l, p q = true) : l.all p = true :=
  List.all_eq_true.mpr h

theorem mem_imp_of_all {l : SMap α} {p : Nat × α → Bool}
    (h : l.all p = true) : ∀ q ∈ l, p q = true :=
  List.all_eq_true.mp h

theorem all_erase {l : SMap α} {p : Nat × α → Bool} (k : Nat)
    (h : l.all p = true) : (erase l k).all p = true :=
  all_of_mem_imp fun q hq => mem_imp_of_all h q (mem_of_mem_erase hq)

theorem all_insert {l : SMap α} {p : Nat × α → Bool} {k : Nat} {v : α}
    (h : l.all p = true) (hp : p (k, v) = true) :
    (insert l k v).all p = true :=
  all_of_mem_imp fun q hq => by
    rcases mem_insert hq with hh | hh
    · rw [hh]; exact hp
    · exact mem_imp_of_all h q hh

theorem all_find?_some {l : SMap α} {p : Nat × α → Bool} {k : Nat} {v : α}
    (h : l.all p = true) (hf : l.find? k = some v) : p (k, v) = true := by
  induction l with
  | nil => cases hf
  | cons q rest ih =>
    obtain ⟨k1, v1⟩ := q
    simp only [find?] at hf
    simp only [List.all_cons, Bool.and_eq_true] at h
    by_cases h1 : k1 = k
    · rw [if_pos h1] at hf
      cases hf
      exact h1 ▸ h.1
    · rw [if_neg h1] at hf
      exact ih h.2 hf

theorem insert_insert_same (m : SMap α) (k : Nat) (v w : α) :
    insert (insert m k v) k w = insert m k w := by
  induction m with
  | nil => simp [insert]
  | cons p rest ih =>
    obtain ⟨k1, v1⟩ := p
    by_cases h1 : k < k1
    · simp [insert, if_pos h1]
    · by_cases h2 : k = k1
      · simp [insert, if_neg h1, if_pos h2]
      · simp only [insert, if_neg h1, if_neg h2]
        rw [ih]

end SMap

namespace StakingContract

/-- Helper: a positive `get_active_balance` names an actual entry. -/
theorem get_active_balance_pos {s : StakingContract} {a : Nat}
    (h : 0 < s.get_active_balance a) :
    ∃ st, s.active_stake_by_address.find? a = some st ∧
      st.balance = s.get_active_balance a := by
  unfold get_active_balance at h ⊢
  cases hf : s.active_stake_by_address.find? a with
  | none => rw [hf] at h; simp at h
  | some st => exact ⟨st, rfl, rfl⟩

end StakingContract

/-- Helper: checked addition succeeds within bounds. -/
theorem balance_add_ok {a b : Nat} (h : a + b ≤ MAX_COIN) :
    balance_add a b = .ok (a + b) := by
  simp [balance_add, h]

/-- Helper: checked subtraction succeeds when covered. -/
theorem balance_sub_ok {a b : Nat} (h : b ≤ a) :
    balance_sub a b = .ok (a - b) := by
  simp [balance_sub, h]

namespace StakingContract

/-- Helper: unpacking the well-formedness bundle. -/
theorem wfContract_spec {s : StakingContract} (h : s.WfContract = true) :
    SMap.Wf s.active_stake_by_address = true ∧
    SMap.Wf s.inactive_stake_by_address = true ∧
    SMap.Wf s.current_epoch_parking = true ∧
    SMap.Wf s.previous_epoch_parking = true ∧
    s.balance ≤ MAX_COIN ∧
    s.active_stake_by_address.all
      (fun p => !(p.2.balance == 0) && decide (p.2.balance ≤ MAX_COIN)) = true ∧
    s.inactive_stake_by_address.all
      (fun p => !(p.2.balance == 0) && decide (p.2.balance ≤ MAX_COIN)) = true := by
  unfold WfContract at h
  simp only [Bool.and_eq_true, decide_eq_true_eq] at h
  exact ⟨h.1.1.1.1.1.1, h.1.1.1.1.1.2, h.1.1.1.1.2, h.1.1.1.2, h.1.1.2,
    h.1.2, h.2⟩

/-- Helper: rebuilding the well-formedness bundle. -/
theorem wfContract_intro {s : StakingContract}
    (h1 : SMap.Wf s.active_stake_by_address = true)
    (h2 : SMap.Wf s.inactive_stake_by_address = true)
    (h3 : SMap.Wf s.current_epoch_parking = true)
    (h4 : SMap.Wf s.previous_epoch_parking = true)
    (h5 : s.balance ≤ MAX_COIN)
    (h6 : s.active_stake_by_address.all
      (fun p => !(p.2.balance == 0) && decide (p.2.balance ≤ MAX_COIN)) = true)
    (h7 : s.inactive_stake_by_address.all
      (fun p => !(p.2.balance == 0) && decide (p.2.balance ≤ MAX_COIN)) = true) :
    s.WfContract = true := by
  unfold WfContract
  simp only [Bool.and_eq_true, decide_eq_true_eq]
  exact ⟨⟨⟨⟨⟨⟨h1, h2⟩, h3⟩, h4⟩, h5⟩, h6⟩, h7⟩

/-- Helper: unpacking the stake-centric balance invariant. -/
theorem balanceInvariant_spec {s : StakingContract}
    (h : s.balanceInvariant = true) :
    s.balance = s.sumActiveStakes + s.sumInactiveStakes := by
  simp only [balanceInvariant, beq_iff_eq] at h
  exact h

/-- Helper: rebuilding the stake-centric balance invariant. -/
theorem balanceInvariant_intro {s : StakingContract}
    (h : s.balance = s.sumActiveStakes + s.sumInactiveStakes) :
    s.balanceInvariant = true := by
  simp only [balanceInvariant, beq_iff_eq]
  exact h

/-- Helper: the finalize-epoch sender half on a well-formed,
invariant-satisfying state: retiring the full balance of an existing active
entry succeeds, erases the entry, and preserves well-formedness and the
invariant. -/
theorem retire_sender_old_full {s : StakingContract} {a : Nat}
    {st : ActiveStake} (block_height : Nat)
    (hwf : s.WfContract = true) (hinv : s.balanceInvariant = true)
    (hfind : s.active_stake_by_address.find? a = some st) :
    s.retire_sender_old a st.balance block_height =
      (.ok (some ⟨st.validator_key, st.reward_address⟩),
       { s with balance := s.balance - st.balance,
                active_stake_by_address :=
                  s.active_stake_by_address.erase a }) ∧
    ({ s with balance := s.balance - st.balance,
              active_stake_by_address :=
                s.active_stake_by_address.erase a } :
      StakingContract).WfContract = true ∧
    ({ s with balance := s.balance - st.balance,
              active_stake_by_address :=
                s.active_stake_by_address.erase a } :
      StakingContract).balanceInvariant = true := by
  obtain ⟨hw1, hw2, hw3, hw4, hw5, hw6, hw7⟩ := wfContract_spec hwf
  have hinv2 : s.balance =
      SMap.sumBy (fun x => x.balance) s.active_stake_by_address +
      SMap.sumBy (fun x => x.balance) s.inactive_stake_by_address :=
    balanceInvariant_spec hinv
  have hle : st.balance ≤
      SMap.sumBy (fun x => x.balance) s.active_stake_by_address := by
    simpa using SMap.le_sumBy_of_find?_some (fun x => x.balance) hfind
  have hsub : st.balance ≤ s.balance := by omega
  have herase : SMap.sumBy (fun x => x.balance)
        (s.active_stake_by_address.erase a) + st.balance =
      SMap.sumBy (fun x => x.balance) s.active_stake_by_address := by
    simpa using SMap.sumBy_erase (fun x => x.balance) hfind
  refine ⟨?_, ?_, ?_⟩
  · simp only [retire_sender_old, hfind, balance_sub_ok hsub, gt_iff_lt,
      lt_self_iff_false, if_false, Nat.sub_self, if_true]
  · exact wfContract_intro (SMap.wf_erase hw1 a) hw2 hw3 hw4
      (Nat.le_trans (Nat.sub_le _ _) hw5) (SMap.all_erase a hw6) hw7
  · refine balanceInvariant_intro ?_
    show s.balance - st.balance =
      SMap.sumBy (fun x => x.balance) (s.active_stake_by_address.erase a) +
      SMap.sumBy (fun x => x.balance) s.inactive_stake_by_address
    omega

/-- Helper: the finalize-epoch recipient half on a well-formed,
invariant-satisfying state: merging a positive value into the inactive
stake succeeds and preserves well-formedness and the invariant, adding the
value to the balance. -/
theorem retire_recipient_ok {s : StakingContract} {a : Nat} {bal : Nat}
    (block_height : Nat)
    (hwf : s.WfContract = true) (hinv : s.balanceInvariant = true)
    (hpos : 0 < bal) (hbound : s.balance + bal ≤ MAX_COIN) :
    ∃ rc s2, s.retire_recipient a bal block_height = (.ok rc, s2) ∧
      s2.WfContract = true ∧ s2.balanceInvariant = true ∧
      s2.balance = s.balance + bal ∧
      s2.active_stake_by_address = s.active_stake_by_address ∧
      s2.current_epoch_parking = s.current_epoch_parking ∧
      s2.previous_epoch_parking = s.previous_epoch_parking := by
  obtain ⟨hw1, hw2, hw3, hw4, hw5, hw6, hw7⟩ := wfContract_spec hwf
  have hinv2 : s.balance =
      SMap.sumBy (fun x => x.balance) s.active_stake_by_address +
      SMap.sumBy (fun x => x.balance) s.inactive_stake_by_address :=
    balanceInvariant_spec hinv
  cases hfind : s.inactive_stake_by_address.find? a with
  | some inact =>
    have hle : inact.balance ≤
        SMap.sumBy (fun x => x.balance) s.inactive_stake_by_address := by
      simpa using SMap.le_sumBy_of_find?_some (fun x => x.balance) hfind
    have hbound2 : inact.balance + bal ≤ MAX_COIN := by omega
    have herase : SMap.sumBy (fun x => x.balance)
          (s.inactive_stake_by_address.erase a) + inact.balance =
        SMap.sumBy (fun x => x.balance) s.inactive_stake_by_address := by
      simpa using SMap.sumBy_erase (fun x => x.balance) hfind
    have hnone : (s.inactive_stake_by_address.erase a).find? a = none :=
      SMap.find?_erase_self hw2 a
    have hins : SMap.sumBy (fun x => x.balance)
          ((s.inactive_stake_by_address.erase a).insert a
            (⟨inact.balance + bal, block_height⟩ : InactiveStake)) =
        SMap.sumBy (fun x => x.balance)
          (s.inactive_stake_by_address.erase a) + (inact.balance + bal) := by
      simpa using SMap.sumBy_insert_of_find?_none (fun x => x.balance)
        (⟨inact.balance + bal, block_height⟩ : InactiveStake) hnone
    refine ⟨some ⟨inact.retire_time⟩,
      { s with balance := s.balance + bal,
               inactive_stake_by_address :=
                 (s.inactive_stake_by_address.erase a).insert a
                   ⟨inact.balance + bal, block_height⟩ },
      ?_, ?_, ?_, rfl, rfl, rfl, rfl⟩
    · simp only [retire_recipient, balance_add_ok hbound, hfind,
        balance_add_ok hbound2]
    · refine wfContract_intro ?_ ?_ ?_ ?_ ?_ ?_ ?_
      · exact hw1
      · exact SMap.wf_insert (SMap.wf_erase hw2 a) _ _
      · exact hw3
      · exact hw4
      · show s.balance + bal ≤ MAX_COIN
        exact hbound
      · exact hw6
      · refine SMap.all_insert (SMap.all_erase a hw7) ?_
        simp only [Bool.and_eq_true, decide_eq_true_eq, Bool.not_eq_true',
          beq_eq_false_iff_ne]
        exact ⟨by omega, by omega⟩
    · refine balanceInvariant_intro ?_
      show s.balance + bal =
        SMap.sumBy (fun x => x.balance) s.active_stake_by_address +
        SMap.sumBy (fun x => x.balance)
          ((s.inactive_stake_by_address.erase a).insert a
            ⟨inact.balance + bal, block_height⟩)
      omega
  | none =>
    have hins : SMap.sumBy (fun x => x.balance)
          (s.inactive_stake_by_address.insert a
            (⟨bal, block_height⟩ : InactiveStake)) =
        SMap.sumBy (fun x => x.balance) s.inactive_stake_by_address + bal := by
      simpa using SMap.sumBy_insert_of_find?_none (fun x => x.balance)
        (⟨bal, block_height⟩ : InactiveStake) hfind
    refine ⟨none,
      { s with balance := s.balance + bal,
               inactive_stake_by_address :=
                 s.inactive_stake_by_address.insert a ⟨bal, block_height⟩ },
      ?_, ?_, ?_, rfl, rfl, rfl, rfl⟩
    · simp only [retire_recipient, balance_add_ok hbound, hfind]
    · refine wfContract_intro ?_ ?_ ?_ ?_ ?_ ?_ ?_
      · exact hw1
      · exact SMap.wf_insert hw2 _ _
      · exact hw3
      · exact hw4
      · show s.balance + bal ≤ MAX_COIN
        exact hbound
      · exact hw6
      · refine SMap.all_insert hw7 ?_
        simp only [Bool.and_eq_true, decide_eq_true_eq, Bool.not_eq_true',
          beq_eq_false_iff_ne]
        exact ⟨by omega, by omega⟩
    · refine balanceInvariant_intro ?_
      show s.balance + bal =
        SMap.sumBy (fun x => x.balance) s.active_stake_by_address +
        SMap.sumBy (fun x => x.balance)
          (s.inactive_stake_by_address.insert a ⟨bal, block_height⟩)
      omega

end StakingContract

/-- Helper: inversion of a successful checked addition. -/
theorem balance_add_ok_inv {a b c : Nat} (h : balance_add a b = .ok c) :
    a + b ≤ MAX_COIN ∧ c = a + b := by
  unfold balance_add at h
  split at h
  · exact ⟨by assumption, (Except.ok.inj h).symm⟩
  · exact Except.noConfusion h

/-- Helper: inversion of a failed checked addition. -/
theorem balance_add_err_inv {a b : Nat} {e : AccountError}
    (h : balance_add a b = .error e) : MAX_COIN < a + b := by
  unfold balance_add at h
  split at h
  · exact Except.noConfusion h
  · omega

/-- Helper: inversion of a successful checked subtraction. -/
theorem balance_sub_ok_inv {a b c : Nat} (h : balance_sub a b = .ok c) :
    b ≤ a ∧ c = a - b := by
  unfold balance_sub at h
  split at h
  · exact ⟨by assumption, (Except.ok.inj h).symm⟩
  · exact Except.noConfusion h

/-- Helper: inversion of a failed checked subtraction. -/
theorem balance_sub_err_inv {a b : Nat} {e : AccountError}
    (h : balance_sub a b = .error e) : a < b := by
  unfold balance_sub at h
  split at h
  · exact Except.noConfusion h
  · omega

namespace StakingContract

/-- Helper: the finalize-epoch sweep never fails on a well-formed state
satisfying the balance invariant, and it preserves both. -/
theorem finalize_loop_ok (addrs : List Nat) (s : StakingContract)
    (block_height : Nat) (hwf : s.WfContract = true)
    (hinv : s.balanceInvariant = true) :
    ∃ s2, finalize_loop s addrs block_height = (.ok (), s2) ∧
      s2.WfContract = true ∧ s2.balanceInvariant = true := by
  induction addrs generalizing s with
  | nil => exact ⟨s, rfl, hwf, hinv⟩
  | cons a rest ih =>
    by_cases hpos : 0 < s.get_active_balance a
    · obtain ⟨st, hfind, hbal⟩ := get_active_balance_pos hpos
      obtain ⟨hsender, hwf1, hinv1⟩ :=
        retire_sender_old_full block_height hwf hinv hfind
      have hw5 : s.balance ≤ MAX_COIN := (wfContract_spec hwf).2.2.2.2.1
      have hinv2 : s.balance =
          SMap.sumBy (fun x => x.balance) s.active_stake_by_address +
          SMap.sumBy (fun x => x.balance) s.inactive_stake_by_address :=
        balanceInvariant_spec hinv
      have hle : st.balance ≤
          SMap.sumBy (fun x => x.balance) s.active_stake_by_address := by
        simpa using SMap.le_sumBy_of_find?_some (fun x => x.balance) hfind
      have hbound : (s.balance - st.balance) + st.balance ≤ MAX_COIN := by
        omega
      have hstpos : 0 < st.balance := by rw [hbal]; exact hpos
      obtain ⟨rc, s2, hrec, hwf2, hinv2b, hbal2, hact2, hc2, hp2⟩ :=
        @retire_recipient_ok { s with
            balance := s.balance - st.balance,
            active_stake_by_address := s.active_stake_by_address.erase a }
          a st.balance block_height hwf1 hinv1 hstpos hbound
      obtain ⟨s3, hloop, hwf3, hinv3⟩ := ih s2 hwf2 hinv2b
      refine ⟨s3, ?_, hwf3, hinv3⟩
      have hpos2 : (s.get_active_balance a > 0) = True :=
        eq_true hpos
      simp only [finalize_loop, hpos2, if_true, ← hbal, hsender, hrec, hloop]
      rw [if_pos hstpos]
    · have hpos2 : (s.get_active_balance a > 0) = False :=
        eq_false hpos
      obtain ⟨s3, hloop, hwf3, hinv3⟩ := ih s hwf hinv
      refine ⟨s3, ?_, hwf3, hinv3⟩
      simp only [finalize_loop, hpos2, if_false, hloop]

/-- Helper: every failing `stake_old` leaves the state unchanged (the
modelled action is guard-first). -/
theorem stake_old_err {s s1 : StakingContract} {p : Nat} {v k : Nat}
    {rw : Option Nat} {e : AccountError}
    (h : s.stake_old p v k rw = (.error e, s1)) : s1 = s := by
  simp only [stake_old] at h
  split at h
  · exact (congrArg Prod.snd h).symm
  · split at h
    · exact (congrArg Prod.snd h).symm
    · split at h
      · split at h
        · exact (congrArg Prod.snd h).symm
        · exact Except.noConfusion (congrArg Prod.fst h)
      · exact Except.noConfusion (congrArg Prod.fst h)

/-- Helper: every failing `retire_sender_old` leaves the state unchanged
(the modelled action is guard-first). -/
theorem retire_sender_old_err {s s1 : StakingContract} {a v bh : Nat}
    {e : AccountError}
    (h : s.retire_sender_old a v bh = (.error e, s1)) : s1 = s := by
  simp only [retire_sender_old] at h
  split at h
  · exact (congrArg Prod.snd h).symm
  · split at h
    · exact (congrArg Prod.snd h).symm
    · split at h
      · exact (congrArg Prod.snd h).symm
      · split at h
        · exact Except.noConfusion (congrArg Prod.fst h)
        · exact Except.noConfusion (congrArg Prod.fst h)

/-- Helper: a failing `unpark_recipient` leaves the state unchanged: the
failure happens exactly when the address is parked in neither set, in which
case both erasures are no-ops. -/
theorem unpark_recipient_err {s s1 : StakingContract} {a v : Nat}
    {e : AccountError}
    (h : s.unpark_recipient a v = (.error e, s1)) : s1 = s := by
  simp only [unpark_recipient] at h
  split at h
  · rename_i hcond
    simp only [Bool.and_eq_true, Bool.not_eq_true'] at hcond
    have hc1 : s.current_epoch_parking.erase a = s.current_epoch_parking :=
      SMap.erase_of_find?_none (SMap.contains_eq_false hcond.1)
    have hc2 : s.previous_epoch_parking.erase a = s.previous_epoch_parking :=
      SMap.erase_of_find?_none (SMap.contains_eq_false hcond.2)
    have hs1 : s1 = { s with
        current_epoch_parking := s.current_epoch_parking.erase a,
        previous_epoch_parking := s.previous_epoch_parking.erase a } :=
      (congrArg Prod.snd h).symm
    rw [hs1, hc1, hc2]
  · exact Except.noConfusion (congrArg Prod.fst h)

/-- Helper: a failing `retire_recipient` leaves a well-formed,
invariant-satisfying state unchanged: the only mutation-after-check
failure (the merge overflowing) is impossible when the inactive balance is
dominated by the contract balance. -/
theorem retire_recipient_err {s s1 : StakingContract} {a v bh : Nat}
    {e : AccountError} (hwf : s.WfContract = true)
    (hinv : s.balanceInvariant = true)
    (h : s.retire_recipient a v bh = (.error e, s1)) : s1 = s := by
  have hinv2 : s.balance =
      SMap.sumBy (fun x => x.balance) s.active_stake_by_address +
      SMap.sumBy (fun x => x.balance) s.inactive_stake_by_address :=
    balanceInvariant_spec hinv
  simp only [retire_recipient] at h
  split at h
  · exact (congrArg Prod.snd h).symm
  · rename_i nb hadd
    obtain ⟨hble, hnb⟩ := balance_add_ok_inv hadd
    split at h
    · rename_i inact hfind
      split at h
      · rename_i e2 hadd2
        have hover := balance_add_err_inv hadd2
        have hle : inact.balance ≤
            SMap.sumBy (fun x => x.balance) s.inactive_stake_by_address := by
          simpa using SMap.le_sumBy_of_find?_some (fun x => x.balance) hfind
        omega
      · exact Except.noConfusion (congrArg Prod.fst h)
    · exact Except.noConfusion (congrArg Prod.fst h)

end StakingContract

namespace StakingContract

/-- Helper: a passing outgoing check names a signer, and for a non-self
transaction an inactive entry covering the total value. -/
theorem check_outgoing_ok_spec {s : StakingContract} {tx : Transaction}
    {block_height : Nat}
    (hok : s.check_outgoing_transaction tx block_height = .ok ()) :
    ∃ a, tx.get_signer = .ok a ∧
      (tx.sender ≠ tx.recipient →
        ∃ st tv, s.inactive_stake_by_address.find? a = some st ∧
          tx.total_value = .ok tv ∧ tv ≤ st.balance) := by
  unfold check_outgoing_transaction at hok
  split at hok
  next e heq => exact Except.noConfusion hok
  next a heq =>
    refine ⟨a, heq, ?_⟩
    intro hns
    rw [if_pos hns] at hok
    split at hok
    next hfind => exact Except.noConfusion hok
    next st hfind =>
      split at hok
      next hd => exact Except.noConfusion hok
      next hd =>
        split at hok
        next e htv => exact Except.noConfusion hok
        next tv htv =>
          simp only [balance_sufficient] at hok
          split at hok
          next hle => exact ⟨st, tv, hfind, htv, hle⟩
          next hle => exact Except.noConfusion hok

/-- Helper: `unstake` succeeds whenever the entry covers the value and the
balance invariant holds. -/
theorem unstake_ok_of_covered {s : StakingContract} {a tv : Nat}
    {st : InactiveStake}
    (hfind : s.inactive_stake_by_address.find? a = some st)
    (hcov : tv ≤ st.balance) (hinv : s.balanceInvariant = true) :
    ∃ rc s2, s.unstake a tv = (.ok rc, s2) := by
  have hinv2 : s.balance =
      SMap.sumBy (fun x => x.balance) s.active_stake_by_address +
      SMap.sumBy (fun x => x.balance) s.inactive_stake_by_address :=
    balanceInvariant_spec hinv
  have hle : st.balance ≤
      SMap.sumBy (fun x => x.balance) s.inactive_stake_by_address := by
    simpa using SMap.le_sumBy_of_find?_some (fun x => x.balance) hfind
  have hsub : tv ≤ s.balance := by omega
  by_cases hgt : st.balance > tv
  · refine ⟨none, { s with balance := s.balance - tv, inactive_stake_by_address := (s.inactive_stake_by_address.erase a).insert a ⟨st.balance - tv, st.retire_time⟩ }, ?_⟩
    simp only [unstake, hfind, balance_sub_ok hsub, if_pos hgt,
      balance_sub_ok (Nat.le_of_lt hgt)]
  · have heq : st.balance = tv := by omega
    refine ⟨some ⟨st.retire_time⟩, { s with balance := s.balance - tv, inactive_stake_by_address := s.inactive_stake_by_address.erase a }, ?_⟩
    simp only [unstake, hfind, balance_sub_ok hsub, if_neg hgt, if_pos heq]

/-- Claim C3 (amended): on every state satisfying the structural
well-formedness conditions and the master balance invariant, whenever
`commit_incoming_transaction`, `commit_outgoing_transaction` or
`commit_inherent` returns an error the contract state is unchanged.  (On
states violating the invariant, `unstake` can error after mutating.) -/
theorem commit_error_leaves_state_unchanged (s : StakingContract)
    (op : DispatchOp) (block_height : Nat) (e : AccountError)
    (s1 : StakingContract) (hwf : s.WfContract = true)
    (hinv : s.balanceInvariant = true)
    (hc : commitDispatch s op block_height = (.error e, s1)) :
    s1 = s := by
  cases op with
  | incoming tx =>
    simp only [commitDispatch, commit_incoming_transaction] at hc
    split at hc
    · split at hc
      next heq => exact (congrArg Prod.snd hc).symm
      next kpair heq =>
        split at hc
        next e2 s1b heq2 =>
          have hb := stake_old_err heq2
          have h2 : s1 = s1b := (congrArg Prod.snd hc).symm
          rw [h2, hb]
        next rc s1b heq2 => exact Except.noConfusion (congrArg Prod.fst hc)
    · split at hc
      next heq => exact (congrArg Prod.snd hc).symm
      next ty heq =>
        split at hc
        next heq2 => exact (congrArg Prod.snd hc).symm
        next a heq2 =>
          split at hc
          · split at hc
            next e3 s1b heq3 =>
              have hb := retire_recipient_err hwf hinv heq3
              have h2 : s1 = s1b := (congrArg Prod.snd hc).symm
              rw [h2, hb]
            next rc s1b heq3 => exact Except.noConfusion (congrArg Prod.fst hc)
          · split at hc
            next e3 s1b heq3 =>
              have hb := unpark_recipient_err heq3
              have h2 : s1 = s1b := (congrArg Prod.snd hc).symm
              rw [h2, hb]
            next rc s1b heq3 => exact Except.noConfusion (congrArg Prod.fst hc)
  | outgoing tx =>
    simp only [commitDispatch, commit_outgoing_transaction] at hc
    split at hc
    next heq => exact (congrArg Prod.snd hc).symm
    next heq =>
      obtain ⟨a, hsig, hrest⟩ := check_outgoing_ok_spec heq
      split at hc
      next heq2 =>
        rw [hsig] at heq2
        exact Except.noConfusion heq2
      next a2 heq2 =>
        have ha : a = a2 := by
          rw [hsig] at heq2
          exact Except.ok.inj heq2
        subst ha
        split at hc
        next hns =>
          obtain ⟨st, tv, hfind, htv, hcov⟩ := hrest hns
          split at hc
          next heq3 =>
            rw [htv] at heq3
            exact Except.noConfusion heq3
          next tv2 heq3 =>
            have htv2 : tv = tv2 := by
              rw [htv] at heq3
              exact Except.ok.inj heq3
            subst htv2
            split at hc
            next e4 s1b heq4 =>
              obtain ⟨rc, s2, hok⟩ := unstake_ok_of_covered hfind hcov hinv
              rw [hok] at heq4
              exact Except.noConfusion (congrArg Prod.fst heq4)
            next rc s1b heq4 => exact Except.noConfusion (congrArg Prod.fst hc)
        next hns =>
          split at hc
          next heq3 => exact (congrArg Prod.snd hc).symm
          next ty heq3 =>
            split at hc
            · split at hc
              next heq4 => exact (congrArg Prod.snd hc).symm
              next tv heq4 =>
                split at hc
                next e5 s1b heq5 =>
                  have hb := retire_sender_old_err heq5
                  have h2 : s1 = s1b := (congrArg Prod.snd hc).symm
                  rw [h2, hb]
                next rc s1b heq5 =>
                  exact Except.noConfusion (congrArg Prod.fst hc)
            · split at hc
              next heq4 => exact (congrArg Prod.snd hc).symm
              next tv heq4 =>
                split at hc
                next e5 s1b heq5 =>
                  exact Except.noConfusion (congrArg Prod.fst heq5)
                next rc s1b heq5 =>
                  exact Except.noConfusion (congrArg Prod.fst hc)
  | inherentOp i =>
    simp only [commitDispatch, commit_inherent] at hc
    split at hc
    next heq => exact (congrArg Prod.snd hc).symm
    next heq =>
      split at hc
      · rename_i heqt
        obtain ⟨hval, hlen, hmem⟩ := slash_check_ok_spec s i block_height heqt heq
        have hdeser : deserializeAddress i.data = .ok (bytesToNat i.data) := by
          simp [deserializeAddress, hlen]
        split at hc
        next e2 heq2 =>
          rw [hdeser] at heq2
          exact Except.noConfusion heq2
        next addr heq2 => exact Except.noConfusion (congrArg Prod.fst hc)
      · rename_i heqt
        obtain ⟨hw1, hw2, hw3, hw4, hw5, hw6, hw7⟩ := wfContract_spec hwf
        have hwfs : StakingContract.WfContract { s with current_epoch_parking := ([] : SMap Unit), previous_epoch_parking := s.current_epoch_parking } = true :=
          wfContract_intro hw1 hw2 rfl hw3 hw5 hw6 hw7
        have hinvs : StakingContract.balanceInvariant { s with current_epoch_parking := ([] : SMap Unit), previous_epoch_parking := s.current_epoch_parking } = true := hinv
        obtain ⟨s2, hloop, hwf2, hinv2⟩ := finalize_loop_ok
          (s.previous_epoch_parking.map (·.1))
          { s with current_epoch_parking := ([] : SMap Unit), previous_epoch_parking := s.current_epoch_parking }
          block_height hwfs hinvs
        split at hc
        next e2 s1b heq2 =>
          rw [hloop] at heq2
          exact Except.noConfusion (congrArg Prod.fst heq2)
        next s1b heq2 => exact Except.noConfusion (congrArg Prod.fst hc)
      · exact (congrArg Prod.snd hc).symm

end StakingContract

/-- Witness for C3 on a concrete well-formed state: a staking transaction
with malformed data errors out and the state is returned untouched. -/
theorem commit_error_leaves_state_unchanged_witness :
    exC6State.WfContract = true ∧ exC6State.balanceInvariant = true ∧
    (commitDispatch exC6State (DispatchOp.incoming ⟨1, 2, 3, 0, StakingTxData.malformed, some 7⟩) 0).2 = exC6State :=
  ⟨rfl, rfl,
   StakingContract.commit_error_leaves_state_unchanged exC6State
     (DispatchOp.incoming ⟨1, 2, 3, 0, StakingTxData.malformed, some 7⟩) 0
     AccountError.invalidSerialization
     (commitDispatch exC6State (DispatchOp.incoming ⟨1, 2, 3, 0, StakingTxData.malformed, some 7⟩) 0).2
     rfl rfl rfl⟩

namespace StakingContract

/-- Helper: committing a stake (old shape) and reverting it with the
receipt restores the state, provided the active map is well-formed and its
entries nonzero. -/
theorem stake_old_roundtrip {s s1 : StakingContract} {a v k : Nat}
    {ra : Option Nat} {rc : Option ActiveStakeReceipt}
    (hwfA : SMap.Wf s.active_stake_by_address = true)
    (hall : s.active_stake_by_address.all
      (fun p => !(p.2.balance == 0) && decide (p.2.balance ≤ MAX_COIN)) = true)
    (h : s.stake_old a v k ra = (.ok rc, s1)) :
    s1.revert_stake_old a v rc = (.ok (), s) := by
  unfold stake_old at h
  split at h
  next hv => exact Except.noConfusion (congrArg Prod.fst h)
  next v0 hv =>
    split at h
    next e hb => exact Except.noConfusion (congrArg Prod.fst h)
    next nb hb =>
      obtain ⟨hmax, hnb⟩ := balance_add_ok_inv hb
      split at h
      next entry hf =>
        split at h
        next e hb2 => exact Except.noConfusion (congrArg Prod.fst h)
        next nbal hb2 =>
          obtain ⟨hmax2, hnb2⟩ := balance_add_ok_inv hb2
          have hrc : rc = some ⟨entry.validator_key, entry.reward_address⟩ :=
            (Except.ok.inj (congrArg Prod.fst h)).symm
          have hs1 : s1 = { s with balance := nb, active_stake_by_address := s.active_stake_by_address.insert a ⟨nbal, k, ra⟩ } := (congrArg Prod.snd h).symm
          subst hrc
          have hball := SMap.all_find?_some hall hf
          simp only [Bool.and_eq_true, Bool.not_eq_true', beq_eq_false_iff_ne,
            ne_eq, decide_eq_true_eq] at hball
          have hsub : balance_sub nb v = .ok s.balance := by
            rw [hnb]
            unfold balance_sub
            rw [if_pos (Nat.le_add_left v s.balance), Nat.add_sub_cancel]
          have hns : ¬(nbal - v = 0) := by omega
          have hgt : ¬(v > nbal) := by omega
          have hm : (s.active_stake_by_address.insert a ⟨nbal, k, ra⟩).insert a
              ⟨nbal - v, entry.validator_key, entry.reward_address⟩ =
              s.active_stake_by_address := by
            rw [SMap.insert_insert_same]
            have he : nbal - v = entry.balance := by omega
            rw [he]
            exact SMap.insert_self_of_find?_some hwfA hf
          unfold revert_stake_old
          simp only [hs1, SMap.find?_insert_self, if_neg hgt, hsub, if_neg hns,
            hm]
      next hf =>
        have hrc : rc = none := (Except.ok.inj (congrArg Prod.fst h)).symm
        have hs1 : s1 = { s with balance := nb, active_stake_by_address := s.active_stake_by_address.insert a ⟨v, k, ra⟩ } := (congrArg Prod.snd h).symm
        subst hrc
        have hsub : balance_sub nb v = .ok s.balance := by
          rw [hnb]
          unfold balance_sub
          rw [if_pos (Nat.le_add_left v s.balance), Nat.add_sub_cancel]
        have hgt : ¬(v > v) := by omega
        have hm : (s.active_stake_by_address.insert a ⟨v, k, ra⟩).erase a =
            s.active_stake_by_address := SMap.erase_insert_of_find?_none _ hf
        unfold revert_stake_old
        simp only [hs1, SMap.find?_insert_self, if_neg hgt, hsub,
          Nat.sub_self, if_pos rfl, if_true, hm]

end StakingContract

namespace StakingContract

/-- Helper: committing a staker retirement (recipient half) and reverting it
with the receipt restores the state, provided the inactive map is
well-formed and its entries nonzero. -/
theorem retire_recipient_roundtrip {s s1 : StakingContract} {a v bh : Nat}
    {rc : Option InactiveStakeReceipt}
    (hwfI : SMap.Wf s.inactive_stake_by_address = true)
    (hall : s.inactive_stake_by_address.all
      (fun p => !(p.2.balance == 0) && decide (p.2.balance ≤ MAX_COIN)) = true)
    (h : s.retire_recipient a v bh = (.ok rc, s1)) :
    s1.revert_retire_recipient a v rc = (.ok (), s) := by
  unfold retire_recipient at h
  split at h
  next e hb => exact Except.noConfusion (congrArg Prod.fst h)
  next nb hb =>
    obtain ⟨hmax, hnb⟩ := balance_add_ok_inv hb
    simp only [] at h
    split at h
    next inact hf =>
      split at h
      next e hb2 => exact Except.noConfusion (congrArg Prod.fst h)
      next nbal hb2 =>
        obtain ⟨hmax2, hnb2⟩ := balance_add_ok_inv hb2
        have hrc : rc = some ⟨inact.retire_time⟩ :=
          (Except.ok.inj (congrArg Prod.fst h)).symm
        have hs1 : s1 = { s with balance := nb, inactive_stake_by_address := (s.inactive_stake_by_address.erase a).insert a ⟨nbal, bh⟩ } := (congrArg Prod.snd h).symm
        subst hrc
        have hball := SMap.all_find?_some hall hf
        simp only [Bool.and_eq_true, Bool.not_eq_true', beq_eq_false_iff_ne,
          ne_eq, decide_eq_true_eq] at hball
        have hgt : nbal > v := by omega
        have hcond : ¬(decide (nbal > v) ≠
            (some (⟨inact.retire_time⟩ : InactiveStakeReceipt)).isSome) := by
          simp [hgt]
        have hsub : balance_sub nb v = .ok s.balance := by
          rw [hnb]
          unfold balance_sub
          rw [if_pos (Nat.le_add_left v s.balance), Nat.add_sub_cancel]
        have hsub2 : balance_sub nbal v = .ok inact.balance := by
          rw [hnb2]
          unfold balance_sub
          rw [if_pos (Nat.le_add_left v inact.balance), Nat.add_sub_cancel]
        have hm1 : (((s.inactive_stake_by_address.erase a).insert a
            (⟨nbal, bh⟩ : InactiveStake)).erase a) =
            s.inactive_stake_by_address.erase a :=
          SMap.erase_insert_of_find?_none _ (SMap.find?_erase_self hwfI a)
        have hm2 : (s.inactive_stake_by_address.erase a).insert a
            (⟨inact.balance, inact.retire_time⟩ : InactiveStake) =
            s.inactive_stake_by_address := by
          have he : (⟨inact.balance, inact.retire_time⟩ : InactiveStake) =
              inact := rfl
          rw [he, SMap.insert_erase_of_find?_some hwfI hf]
        unfold revert_retire_recipient reactivate_sender
        simp only [hs1, SMap.find?_insert_self, if_neg hcond, Option.map_some',
          Option.getD_some, hm1, hsub, if_pos hgt, hsub2, hm2]
    next hf =>
      have hrc : rc = none := (Except.ok.inj (congrArg Prod.fst h)).symm
      have hs1 : s1 = { s with balance := nb, inactive_stake_by_address := s.inactive_stake_by_address.insert a ⟨v, bh⟩ } := (congrArg Prod.snd h).symm
      subst hrc
      have hcond : ¬(decide (v > v) ≠ (none : Option InactiveStakeReceipt).isSome) := by
        simp
      have hsub : balance_sub nb v = .ok s.balance := by
        rw [hnb]
        unfold balance_sub
        rw [if_pos (Nat.le_add_left v s.balance), Nat.add_sub_cancel]
      have hgt : ¬(v > v) := by omega
      have hm1 : ((s.inactive_stake_by_address.insert a
          (⟨v, bh⟩ : InactiveStake)).erase a) = s.inactive_stake_by_address :=
        SMap.erase_insert_of_find?_none _ hf
      unfold revert_retire_recipient reactivate_sender
      simp only [hs1, SMap.find?_insert_self, if_neg hcond, Option.map_none',
        Option.getD_none, hm1, hsub, if_neg hgt]

end StakingContract

namespace SMap

/-- Helper: re-inserting an erased key exactly when it was present restores
a well-formed set. -/
theorem restore_erase {m : SMap Unit} (hwf : Wf m = true) (a : Nat) :
    (if m.contains a then (m.erase a).insert a () else m.erase a) = m := by
  by_cases hc : m.contains a = true
  · rw [if_pos hc]
    obtain ⟨v, hv⟩ := contains_eq_true hc
    cases v
    exact insert_erase_of_find?_some hwf hv
  · rw [if_neg hc]
    exact erase_of_find?_none (contains_eq_false (Bool.eq_false_iff.mpr hc))

end SMap

namespace StakingContract

/-- Helper: committing an unpark (recipient half) and reverting it with the
receipt restores the state, provided the parking sets are well-formed. -/
theorem unpark_recipient_roundtrip {s s1 : StakingContract} {a v : Nat}
    {rc : UnparkReceipt}
    (hwfC : SMap.Wf s.current_epoch_parking = true)
    (hwfP : SMap.Wf s.previous_epoch_parking = true)
    (h : s.unpark_recipient a v = (.ok rc, s1)) :
    s1.revert_unpark_recipient a v rc = (.ok (), s) := by
  unfold unpark_recipient at h
  simp only [] at h
  split at h
  next hcond => exact Except.noConfusion (congrArg Prod.fst h)
  next hcond =>
    have hrc : rc = ⟨s.current_epoch_parking.contains a, s.previous_epoch_parking.contains a⟩ :=
      (Except.ok.inj (congrArg Prod.fst h)).symm
    have hs1 : s1 = { s with current_epoch_parking := s.current_epoch_parking.erase a, previous_epoch_parking := s.previous_epoch_parking.erase a } := (congrArg Prod.snd h).symm
    subst hrc
    have hcur := SMap.restore_erase hwfC a
    have hprev := SMap.restore_erase hwfP a
    unfold revert_unpark_recipient
    simp only [hs1, hcur, hprev]

end StakingContract

namespace StakingContract

/-- Helper: committing an unstake and reverting it with the receipt restores
the state, provided the inactive map is well-formed, its entries bounded,
and the contract balance bounded. -/
theorem unstake_roundtrip {s s1 : StakingContract} {a tv : Nat}
    {rc : Option InactiveStakeReceipt}
    (hwfI : SMap.Wf s.inactive_stake_by_address = true)
    (hall : s.inactive_stake_by_address.all
      (fun p => !(p.2.balance == 0) && decide (p.2.balance ≤ MAX_COIN)) = true)
    (hbalmax : s.balance ≤ MAX_COIN)
    (h : s.unstake a tv = (.ok rc, s1)) :
    s1.revert_unstake a tv rc = (.ok (), s) := by
  unfold unstake at h
  simp only [] at h
  split at h
  next hf => exact Except.noConfusion (congrArg Prod.fst h)
  next inact hf =>
    split at h
    next e hsub => exact Except.noConfusion (congrArg Prod.fst h)
    next nb hsub =>
      obtain ⟨hle, hnb⟩ := balance_sub_ok_inv hsub
      have hball := SMap.all_find?_some hall hf
      simp only [Bool.and_eq_true, Bool.not_eq_true', beq_eq_false_iff_ne,
        ne_eq, decide_eq_true_eq] at hball
      have hadd : balance_add nb tv = .ok s.balance := by
        rw [hnb]
        unfold balance_add
        rw [if_pos (by omega : s.balance - tv + tv ≤ MAX_COIN)]
        have he : s.balance - tv + tv = s.balance := by omega
        rw [he]
      split at h
      next hgt =>
        split at h
        next e hsub2 => exact Except.noConfusion (congrArg Prod.fst h)
        next nbal hsub2 =>
          obtain ⟨hle2, hnbal⟩ := balance_sub_ok_inv hsub2
          have hrc : rc = none := (Except.ok.inj (congrArg Prod.fst h)).symm
          have hs1 : s1 = { s with balance := nb, inactive_stake_by_address := (s.inactive_stake_by_address.erase a).insert a ⟨nbal, inact.retire_time⟩ } := (congrArg Prod.snd h).symm
          subst hrc
          have hm1 : (((s.inactive_stake_by_address.erase a).insert a
              (⟨nbal, inact.retire_time⟩ : InactiveStake)).erase a) =
              s.inactive_stake_by_address.erase a :=
            SMap.erase_insert_of_find?_none _ (SMap.find?_erase_self hwfI a)
          have hadd2 : balance_add nbal tv = .ok inact.balance := by
            rw [hnbal]
            unfold balance_add
            rw [if_pos (by omega : inact.balance - tv + tv ≤ MAX_COIN)]
            have he : inact.balance - tv + tv = inact.balance := by omega
            rw [he]
          have hm2 : (s.inactive_stake_by_address.erase a).insert a
              (⟨inact.balance, inact.retire_time⟩ : InactiveStake) =
              s.inactive_stake_by_address := by
            have he : (⟨inact.balance, inact.retire_time⟩ : InactiveStake) =
                inact := rfl
            rw [he, SMap.insert_erase_of_find?_some hwfI hf]
          have hrec : ¬((none : Option InactiveStakeReceipt).isSome = true) :=
            by simp
          unfold revert_unstake
          simp only [hs1, hadd, SMap.find?_insert_self, hm1, if_neg hrec,
            hadd2, hm2]
      next hgt =>
        split at h
        next heqb =>
          have hrc : rc = some ⟨inact.retire_time⟩ :=
            (Except.ok.inj (congrArg Prod.fst h)).symm
          have hs1 : s1 = { s with balance := nb, inactive_stake_by_address := s.inactive_stake_by_address.erase a } := (congrArg Prod.snd h).symm
          subst hrc
          have hfe := SMap.find?_erase_self hwfI a
          have hm2 : (s.inactive_stake_by_address.erase a).insert a
              (⟨tv, inact.retire_time⟩ : InactiveStake) =
              s.inactive_stake_by_address := by
            have he : (⟨tv, inact.retire_time⟩ : InactiveStake) = inact := by
              rw [← heqb]
            rw [he, SMap.insert_erase_of_find?_some hwfI hf]
          unfold revert_unstake
          simp only [hs1, hadd, hfe, hm2]
        next heqb => exact Except.noConfusion (congrArg Prod.fst h)

end StakingContract

namespace StakingContract

/-- Helper: committing a staker retirement (sender half, old shape) and
reverting it with the receipt restores the state, provided the active map is
well-formed, its entries bounded, and the contract balance bounded. -/
theorem retire_sender_old_roundtrip {s s1 : StakingContract} {a v bh : Nat}
    {rc : Option ActiveStakeReceipt}
    (hwfA : SMap.Wf s.active_stake_by_address = true)
    (hall : s.active_stake_by_address.all
      (fun p => !(p.2.balance == 0) && decide (p.2.balance ≤ MAX_COIN)) = true)
    (hbalmax : s.balance ≤ MAX_COIN)
    (h : s.retire_sender_old a v bh = (.ok rc, s1)) :
    s1.revert_retire_sender_old a v rc = (.ok (), s) := by
  unfold retire_sender_old at h
  split at h
  next hf => exact Except.noConfusion (congrArg Prod.fst h)
  next entry hf =>
    split at h
    next hgt => exact Except.noConfusion (congrArg Prod.fst h)
    next hgt =>
      split at h
      next e hsub => exact Except.noConfusion (congrArg Prod.fst h)
      next nb hsub =>
        obtain ⟨hle, hnb⟩ := balance_sub_ok_inv hsub
        have hball := SMap.all_find?_some hall hf
        simp only [Bool.and_eq_true, Bool.not_eq_true', beq_eq_false_iff_ne,
          ne_eq, decide_eq_true_eq] at hball
        have hadd : balance_add nb v = .ok s.balance := by
          rw [hnb]
          unfold balance_add
          rw [if_pos (by omega : s.balance - v + v ≤ MAX_COIN)]
          have he : s.balance - v + v = s.balance := by omega
          rw [he]
        simp only [] at h
        split at h
        next hz =>
          have hrc : rc = some ⟨entry.validator_key, entry.reward_address⟩ :=
            (Except.ok.inj (congrArg Prod.fst h)).symm
          have hs1 : s1 = { s with balance := nb, active_stake_by_address := s.active_stake_by_address.erase a } := (congrArg Prod.snd h).symm
          subst hrc
          have hfe := SMap.find?_erase_self hwfA a
          have hm2 : (s.active_stake_by_address.erase a).insert a
              (⟨v, entry.validator_key, entry.reward_address⟩ : ActiveStake) =
              s.active_stake_by_address := by
            have he : (⟨v, entry.validator_key, entry.reward_address⟩ :
                ActiveStake) = entry := by
              have hv : v = entry.balance := by omega
              rw [hv]
            rw [he, SMap.insert_erase_of_find?_some hwfA hf]
          unfold revert_retire_sender_old
          simp only [hs1, hadd, hfe, hm2]
        next hz =>
          have hrc : rc = none := (Except.ok.inj (congrArg Prod.fst h)).symm
          have hs1 : s1 = { s with balance := nb, active_stake_by_address := s.active_stake_by_address.insert a ⟨entry.balance - v, entry.validator_key, entry.reward_address⟩ } := (congrArg Prod.snd h).symm
          subst hrc
          have hadd2 : balance_add (entry.balance - v) v = .ok entry.balance := by
            unfold balance_add
            rw [if_pos (by omega : entry.balance - v + v ≤ MAX_COIN)]
            have he : entry.balance - v + v = entry.balance := by omega
            rw [he]
          have hm2 : (s.active_stake_by_address.insert a ⟨entry.balance - v, entry.validator_key, entry.reward_address⟩).insert a (⟨entry.balance, entry.validator_key, entry.reward_address⟩ : ActiveStake) = s.active_stake_by_address := by
            rw [SMap.insert_insert_same]
            have he : (⟨entry.balance, entry.validator_key,
                entry.reward_address⟩ : ActiveStake) = entry := rfl
            rw [he]
            exact SMap.insert_self_of_find?_some hwfA hf
          unfold revert_retire_sender_old
          simp only [hs1, hadd, SMap.find?_insert_self, hadd2, hm2]

end StakingContract

namespace StakingContract

/-- Helper: committing a slash inherent and reverting it with the receipt
restores the state, provided the current-epoch parking set is
well-formed. -/
theorem slash_roundtrip {s s1 : StakingContract} {i : Inherent} {bh : Nat}
    {rc : Option ReceiptData}
    (hwfC : SMap.Wf s.current_epoch_parking = true)
    (hty : i.ty = .slash)
    (h : s.commit_inherent i bh = (.ok rc, s1)) :
    s1.revert_inherent i bh rc = (.ok (), s) := by
  unfold commit_inherent at h
  split at h
  next e heq => exact Except.noConfusion (congrArg Prod.fst h)
  next heq =>
    simp only [hty] at h
    split at h
    next e hd => exact Except.noConfusion (congrArg Prod.fst h)
    next addr hd =>
      have hrc : rc = some (.slashR ⟨!s.current_epoch_parking.contains addr⟩) :=
        (Except.ok.inj (congrArg Prod.fst h)).symm
      have hs1 : s1 = { s with current_epoch_parking := s.current_epoch_parking.insert addr () } := (congrArg Prod.snd h).symm
      subst hrc
      unfold revert_inherent
      by_cases hc : s.current_epoch_parking.contains addr = true
      · obtain ⟨u, hv⟩ := SMap.contains_eq_true hc
        cases u
        have hm : s.current_epoch_parking.insert addr () =
            s.current_epoch_parking :=
          SMap.insert_self_of_find?_some hwfC hv
        simp only [hty, ReceiptData.asSlash, hd, hc, Bool.not_true,
          if_neg (by simp : ¬(false = true)), hs1, hm]
      · have hcf : s.current_epoch_parking.contains addr = false :=
          Bool.eq_false_iff.mpr hc
        have hfind : s.current_epoch_parking.find? addr = none :=
          SMap.contains_eq_false hcf
        have hcontains2 : (s.current_epoch_parking.insert addr ()).contains
            addr = true :=
          SMap.contains_of_find?_some (SMap.find?_insert_self _ addr ())
        have hm : (s.current_epoch_parking.insert addr ()).erase addr =
            s.current_epoch_parking :=
          SMap.erase_insert_of_find?_none _ hfind
        simp only [hty, ReceiptData.asSlash, hd, hcf, Bool.not_false,
          if_pos rfl, if_true, hs1, hcontains2, hm, Bool.not_true,
          if_neg (by simp : ¬(false = true))]

end StakingContract

/-- Claim C1 (amended): for every operation in the dispatch's scope (any
staking transaction, and slash inherents — finalize-epoch commits are not
revertible at all, and reward inherents are rejected), committing on a state
satisfying the structural well-formedness conditions and then reverting with
the returned receipt restores the original state exactly.  (On states with
zero-balance entries, which well-formedness excludes, commit followed by
revert can fail instead.) -/
theorem commit_then_revert_restores_state (s : StakingContract)
    (op : DispatchOp) (block_height : Nat) (r : Option ReceiptData)
    (s1 : StakingContract) (hwf : s.WfContract = true)
    (hscope : op.inScope = true)
    (hc : commitDispatch s op block_height = (.ok r, s1)) :
    revertDispatch s1 op block_height r = (.ok (), s) := by
  obtain ⟨hw1, hw2, hw3, hw4, hw5, hw6, hw7⟩ :=
    StakingContract.wfContract_spec hwf
  cases op with
  | incoming tx =>
    simp only [commitDispatch] at hc
    simp only [revertDispatch]
    unfold StakingContract.commit_incoming_transaction at hc
    unfold StakingContract.revert_incoming_transaction
    by_cases hsr : tx.sender ≠ tx.recipient
    · rw [if_pos hsr] at hc
      rw [if_pos hsr]
      split at hc
      next heqp => exact Except.noConfusion (congrArg Prod.fst hc)
      next k ra heqp =>
        split at hc
        next e s2 heq2 => exact Except.noConfusion (congrArg Prod.fst hc)
        next rc s2 heq2 =>
          have hr : r = rc.map (.activeStakeR ·) :=
            (Except.ok.inj (congrArg Prod.fst hc)).symm
          have hs : s1 = s2 := (congrArg Prod.snd hc).symm
          subst hr
          subst hs
          have hround := StakingContract.stake_old_roundtrip hw1 hw6 heq2
          cases rc with
          | none => simpa using hround
          | some ar =>
            simp only [Option.map_some', ReceiptData.asActiveStake]
            exact hround
    · rw [if_neg hsr] at hc
      rw [if_neg hsr]
      split at hc
      next heqt => exact Except.noConfusion (congrArg Prod.fst hc)
      next ty heqt =>
        split at hc
        next heqs => exact Except.noConfusion (congrArg Prod.fst hc)
        next addr heqs =>
          split at hc
          · split at hc
            next e s2 heq2 => exact Except.noConfusion (congrArg Prod.fst hc)
            next rc s2 heq2 =>
              have hr : r = rc.map (.inactiveStakeR ·) :=
                (Except.ok.inj (congrArg Prod.fst hc)).symm
              have hs : s1 = s2 := (congrArg Prod.snd hc).symm
              subst hr
              subst hs
              have hround :=
                StakingContract.retire_recipient_roundtrip hw2 hw7 heq2
              cases rc with
              | none => simpa using hround
              | some ir =>
                simp only [Option.map_some', ReceiptData.asInactiveStake]
                exact hround
          · split at hc
            next e s2 heq2 => exact Except.noConfusion (congrArg Prod.fst hc)
            next rc s2 heq2 =>
              have hr : r = some (.unparkR rc) :=
                (Except.ok.inj (congrArg Prod.fst hc)).symm
              have hs : s1 = s2 := (congrArg Prod.snd hc).symm
              subst hr
              subst hs
              have hround :=
                StakingContract.unpark_recipient_roundtrip hw3 hw4 heq2
              simp only [ReceiptData.asUnpark]
              exact hround
  | outgoing tx =>
    simp only [commitDispatch] at hc
    simp only [revertDispatch]
    unfold StakingContract.commit_outgoing_transaction at hc
    unfold StakingContract.revert_outgoing_transaction
    split at hc
    next e heq => exact Except.noConfusion (congrArg Prod.fst hc)
    next heq =>
      split at hc
      next heqs => exact Except.noConfusion (congrArg Prod.fst hc)
      next addr heqs =>
        by_cases hsr : tx.sender ≠ tx.recipient
        · rw [if_pos hsr] at hc
          rw [if_pos hsr]
          split at hc
          next heqv => exact Except.noConfusion (congrArg Prod.fst hc)
          next tv heqv =>
            split at hc
            next e s2 h2 => exact Except.noConfusion (congrArg Prod.fst hc)
            next rc s2 h2 =>
              have hr : r = rc.map (.inactiveStakeR ·) :=
                (Except.ok.inj (congrArg Prod.fst hc)).symm
              have hs : s1 = s2 := (congrArg Prod.snd hc).symm
              subst hr
              subst hs
              have hround := StakingContract.unstake_roundtrip hw2 hw7 hw5 h2
              cases rc with
              | none => simpa using hround
              | some ir =>
                simp only [Option.map_some', ReceiptData.asInactiveStake]
                exact hround
        · rw [if_neg hsr] at hc
          rw [if_neg hsr]
          split at hc
          next heqt => exact Except.noConfusion (congrArg Prod.fst hc)
          next ty heqt =>
            split at hc
            · split at hc
              next heqv => exact Except.noConfusion (congrArg Prod.fst hc)
              next tv heqv =>
                split at hc
                next e s2 h2 => exact Except.noConfusion (congrArg Prod.fst hc)
                next rc s2 h2 =>
                  have hr : r = rc.map (.activeStakeR ·) :=
                    (Except.ok.inj (congrArg Prod.fst hc)).symm
                  have hs : s1 = s2 := (congrArg Prod.snd hc).symm
                  subst hr
                  subst hs
                  have hround :=
                    StakingContract.retire_sender_old_roundtrip hw1 hw6 hw5 h2
                  cases rc with
                  | none => simpa using hround
                  | some ar =>
                    simp only [Option.map_some', ReceiptData.asActiveStake]
                    exact hround
            · split at hc
              next heqv => exact Except.noConfusion (congrArg Prod.fst hc)
              next tv heqv =>
                split at hc
                next e s2 h2 => exact Except.noConfusion (congrArg Prod.fst h2)
                next rc s2 h2 =>
                  have hr : r = none :=
                    (Except.ok.inj (congrArg Prod.fst hc)).symm
                  have hs2 : s2 = s := (congrArg Prod.snd h2).symm
                  have hs : s1 = s2 := (congrArg Prod.snd hc).symm
                  subst hr
                  subst hs
                  rw [hs2]
                  rfl
  | inherentOp i =>
    have hty : i.ty = .slash := by
      simpa [DispatchOp.inScope] using hscope
    simp only [commitDispatch] at hc
    simp only [revertDispatch]
    exact StakingContract.slash_roundtrip hw3 hty hc

/-- Witness for C1 on a concrete well-formed state: a slash inherent against
a staked address commits successfully and its revert restores the state. -/
theorem commit_then_revert_restores_state_witness :
    exSlashState.WfContract = true ∧
    (DispatchOp.inherentOp exSlashInherent).inScope = true ∧
    commitDispatch exSlashState (DispatchOp.inherentOp exSlashInherent) 0 = (.ok (some (.slashR ⟨true⟩)), exSlashState1) ∧
    revertDispatch exSlashState1 (DispatchOp.inherentOp exSlashInherent) 0 (some (.slashR ⟨true⟩)) = (.ok (), exSlashState) :=
  ⟨rfl, rfl, rfl,
   commit_then_revert_restores_state exSlashState
     (DispatchOp.inherentOp exSlashInherent) 0 (some (.slashR ⟨true⟩))
     exSlashState1 rfl rfl rfl⟩

/-- Helper: fixed-width big-endian encodings have their declared length. -/
theorem natToBEBytes_length (w n : Nat) : (natToBEBytes w n).length = w := by
  induction w generalizing n with
  | zero => rfl
  | succ w ih => simp [natToBEBytes, ih]

/-- Helper: the big-endian fold with an arbitrary accumulator. -/
theorem bytesToNat_foldl (bs : List Nat) (a : Nat) :
    bs.foldl (fun x b => x * 256 + b) a =
    a * 256 ^ bs.length + bs.foldl (fun x b => x * 256 + b) 0 := by
  induction bs generalizing a with
  | nil => simp
  | cons b r ih =>
    simp only [List.foldl_cons, List.length_cons]
    rw [ih (a * 256 + b), ih (0 * 256 + b)]
    ring

/-- Helper: decoding inverts the fixed-width big-endian encoding. -/
theorem bytesToNat_natToBEBytes {w n : Nat} (h : n < 256 ^ w) :
    bytesToNat (natToBEBytes w n) = n := by
  induction w generalizing n with
  | zero =>
    simp only [pow_zero, Nat.lt_one_iff] at h
    simp [natToBEBytes, bytesToNat, h]
  | succ w ih =>
    have hpos : 0 < 256 ^ w := Nat.pos_pow_of_pos w (by omega)
    have hmod : n % 256 ^ w < 256 ^ w := Nat.mod_lt _ hpos
    have hc : bytesToNat ((n / 256 ^ w % 256) :: natToBEBytes w (n % 256 ^ w))
        = (n / 256 ^ w % 256) * 256 ^ w +
          bytesToNat (natToBEBytes w (n % 256 ^ w)) := by
      unfold bytesToNat
      rw [List.foldl_cons, bytesToNat_foldl, natToBEBytes_length]
      simp
    show bytesToNat ((n / 256 ^ w % 256) :: natToBEBytes w (n % 256 ^ w)) = n
    rw [hc, ih hmod]
    have hdiv : n / 256 ^ w < 256 := by
      apply Nat.div_lt_of_lt_mul
      rw [pow_succ] at h
      omega
    rw [Nat.mod_eq_of_lt hdiv, Nat.mul_comm]
    exact Nat.div_add_mod n (256 ^ w)

/-- Helper: reading a fixed-width integer from the front of a stream. -/
theorem deserNat_append {w n : Nat} (rest : List Nat) (h : n < 256 ^ w) :
    deserNat w (natToBEBytes w n ++ rest) = some (n, rest) := by
  have hlen : (natToBEBytes w n).length = w := natToBEBytes_length w n
  have ht : (natToBEBytes w n ++ rest).take w = natToBEBytes w n :=
    List.take_left' hlen
  have hd : (natToBEBytes w n ++ rest).drop w = rest :=
    List.drop_left' hlen
  unfold deserNat readBytes
  rw [if_pos (by rw [List.length_append, hlen]; omega)]
  simp only [Option.map_some', ht, hd, bytesToNat_natToBEBytes h]

/-- Helper: reading an inactive stake from the front of a stream. -/
theorem deserInactiveStake_append {st : InactiveStake} (rest : List Nat)
    (hb : st.balance < 256 ^ 8) (hr : st.retire_time < 256 ^ 4) :
    deserInactiveStake (serInactiveStake st ++ rest) = some (st, rest) := by
  have h1 : deserNat 8 (natToBEBytes 8 st.balance ++
      (natToBEBytes 4 st.retire_time ++ rest)) =
      some (st.balance, natToBEBytes 4 st.retire_time ++ rest) :=
    deserNat_append _ hb
  have h2 : deserNat 4 (natToBEBytes 4 st.retire_time ++ rest) =
      some (st.retire_time, rest) := deserNat_append _ hr
  simp only [serInactiveStake, serCoin, serU32, List.append_assoc,
    deserInactiveStake, h1, h2]

/-- Helper: reading an optional address from the front of a stream. -/
theorem deserOption_serAddress_append {o : Option Nat} (rest : List Nat)
    (h : ∀ x ∈ o, x < 256 ^ 20) :
    deserOption (deserNat 20) (serOption serAddress o ++ rest) =
    some (o, rest) := by
  cases o with
  | none => rfl
  | some x =>
    have h1 : deserNat 20 (natToBEBytes 20 x ++ rest) = some (x, rest) :=
      deserNat_append _ (h x rfl)
    simp only [serOption, serAddress, List.cons_append, deserOption, h1,
      Option.map_some']

/-- Helper: reading an optional inactive stake from the front of a
stream. -/
theorem deserOption_serInactiveStake_append {o : Option InactiveStake}
    (rest : List Nat)
    (h : ∀ st ∈ o, st.balance < 256 ^ 8 ∧ st.retire_time < 256 ^ 4) :
    deserOption deserInactiveStake (serOption serInactiveStake o ++ rest) =
    some (o, rest) := by
  cases o with
  | none => rfl
  | some st =>
    have h1 : deserInactiveStake (serInactiveStake st ++ rest) =
        some (st, rest) :=
      deserInactiveStake_append _ (h st rfl).1 (h st rfl).2
    simp only [serOption, List.cons_append, deserOption, h1, Option.map_some']

/-- Helper: reading an active stake record from the front of a stream. -/
theorem deserActiveStake_append {a : Nat} {st : ActiveStake} (rest : List Nat)
    (ha : a < 256 ^ 20) (hb : st.balance < 256 ^ 8)
    (hk : st.validator_key < 256 ^ 96)
    (hra : ∀ x ∈ st.reward_address, x < 256 ^ 20) :
    deserActiveStake (serActiveStake a st ++ rest) = some ((a, st), rest) := by
  have h1 : deserNat 20 (natToBEBytes 20 a ++ (natToBEBytes 8 st.balance ++
      (natToBEBytes 96 st.validator_key ++
        (serOption serAddress st.reward_address ++ rest)))) =
      some (a, natToBEBytes 8 st.balance ++ (natToBEBytes 96 st.validator_key
        ++ (serOption serAddress st.reward_address ++ rest))) :=
    deserNat_append _ ha
  have h2 : deserNat 8 (natToBEBytes 8 st.balance ++
      (natToBEBytes 96 st.validator_key ++
        (serOption serAddress st.reward_address ++ rest))) =
      some (st.balance, natToBEBytes 96 st.validator_key ++
        (serOption serAddress st.reward_address ++ rest)) :=
    deserNat_append _ hb
  have h3 : deserNat 96 (natToBEBytes 96 st.validator_key ++
      (serOption serAddress st.reward_address ++ rest)) =
      some (st.validator_key, serOption serAddress st.reward_address ++ rest) :=
    deserNat_append _ hk
  have h4 := @deserOption_serAddress_append st.reward_address rest hra
  simp only [serActiveStake, serAddress, serCoin, serBlsKey,
    List.append_assoc, deserActiveStake, h1, h2, h3, h4]


namespace SMap

/-- Helper: inserting a key above every present key appends. -/
theorem insert_append_of_lt {m : SMap α} {k : Nat} (v : α)
    (h : ∀ p ∈ m, p.1 < k) : insert m k v = m ++ [(k, v)] := by
  induction m with
  | nil => rfl
  | cons x r ih =>
    obtain ⟨k1, v1⟩ := x
    have h1 : k1 < k := h (k1, v1) (List.mem_cons_self _ _)
    simp only [insert, if_neg (by omega : ¬(k < k1)),
      if_neg (by omega : ¬(k = k1)), List.cons_append, List.cons.injEq,
      true_and]
    exact ih fun p hp => h p (List.mem_cons_of_mem _ hp)

/-- Helper: inserting a key below every present key prepends. -/
theorem insert_front {m : SMap α} {k : Nat} (v : α)
    (h : ∀ p ∈ m, k < p.1) : insert m k v = (k, v) :: m := by
  cases m with
  | nil => rfl
  | cons x r =>
    obtain ⟨k1, v1⟩ := x
    have h1 : k < k1 := h (k1, v1) (List.mem_cons_self _ _)
    simp [insert, if_pos h1]

/-- Helper: inserting a key above a head key keeps the head. -/
theorem insert_cons_of_lt {m : SMap α} {k k1 : Nat} (v v1 : α)
    (h : k1 < k) :
    insert ((k1, v1) :: m) k v = (k1, v1) :: insert m k v := by
  simp [insert, if_neg (by omega : ¬(k < k1)), if_neg (by omega : ¬(k = k1))]

/-- Helper: a fold of inserts above a head key keeps the head. -/
theorem foldl_insert_cons {xs : List (Nat × α)} {m : SMap α} {k : Nat} (v : α)
    (h : ∀ p ∈ xs, k < p.1) :
    xs.foldl (fun m p => insert m p.1 p.2) ((k, v) :: m) =
    (k, v) :: xs.foldl (fun m p => insert m p.1 p.2) m := by
  induction xs generalizing m with
  | nil => rfl
  | cons x r ih =>
    simp only [List.foldl_cons]
    rw [insert_cons_of_lt _ _ (h x (List.mem_cons_self _ _))]
    exact ih fun p hp => h p (List.mem_cons_of_mem _ hp)

/-- Helper: elements on the two sides of a well-formed append are
ordered. -/
theorem wf_append_lt {acc l : SMap α} (h : Wf (acc ++ l) = true) :
    ∀ p ∈ acc, ∀ q ∈ l, p.1 < q.1 := by
  induction acc with
  | nil => intro p hp; cases hp
  | cons x r ih =>
    intro p hp q hq
    obtain ⟨k1, v1⟩ := x
    rcases List.mem_cons.mp hp with h1 | h1
    · subst h1
      obtain ⟨kq, vq⟩ := q
      exact wf_head_lt h (List.mem_append.mpr (Or.inr hq))
    · exact ih (wf_cons h) p h1 q hq

/-- Helper: folding inserts of a sorted tail into its prefix rebuilds the
whole list. -/
theorem foldl_insert_restore (l : SMap α) : ∀ acc : SMap α,
    Wf (acc ++ l) = true →
    l.foldl (fun m p => insert m p.1 p.2) acc = acc ++ l := by
  induction l with
  | nil => intro acc _; simp
  | cons x r ih =>
    intro acc hwf
    obtain ⟨k, v⟩ := x
    have hlt : ∀ p ∈ acc, p.1 < k :=
      fun p hp => wf_append_lt hwf p hp (k, v) (List.mem_cons_self _ _)
    simp only [List.foldl_cons]
    rw [insert_append_of_lt v hlt]
    have hwf2 : Wf ((acc ++ [(k, v)]) ++ r) = true := by
      rw [List.append_assoc, List.singleton_append]
      exact hwf
    rw [ih (acc ++ [(k, v)]) hwf2, List.append_assoc, List.singleton_append]

/-- Helper: folding inserts of a well-formed list into the empty map
rebuilds the list. -/
theorem foldl_insert_self {l : SMap α} (h : Wf l = true) :
    l.foldl (fun m p => insert m p.1 p.2) [] = l :=
  foldl_insert_restore l [] h

/-- Helper: re-merging the two complementary filters of a well-formed map
rebuilds it. -/
theorem filter_merge {l : SMap α} (q : Nat × α → Bool) (hwf : Wf l = true) :
    (l.filter (fun p => !q p)).foldl (fun m p => insert m p.1 p.2)
      (l.filter q) = l := by
  induction l with
  | nil => rfl
  | cons x r ih =>
    obtain ⟨k, v⟩ := x
    have hwfr : Wf r = true := wf_cons hwf
    have hlt : ∀ p ∈ r, k < p.1 := by
      intro p hp
      obtain ⟨kp, vp⟩ := p
      exact wf_head_lt hwf hp
    by_cases hq : q (k, v) = true
    · rw [List.filter_cons_of_pos (by simpa using hq),
        List.filter_cons_of_neg (by simpa using hq)]
      rw [foldl_insert_cons v
        (fun p hp => hlt p (List.mem_of_mem_filter hp))]
      rw [ih hwfr]
    · have hq' : q (k, v) = false := Bool.eq_false_iff.mpr hq
      rw [List.filter_cons_of_neg (by simpa using hq'),
        List.filter_cons_of_pos (by simpa using hq')]
      simp only [List.foldl_cons]
      rw [insert_front v (fun p hp => hlt p (List.mem_of_mem_filter hp))]
      rw [foldl_insert_cons v
        (fun p hp => hlt p (List.mem_of_mem_filter hp))]
      rw [ih hwfr]

/-- Helper: a head below a well-formed map keeps well-formedness. -/
theorem wf_cons_of_head_lt {m : SMap α} {k : Nat} (v : α)
    (hwf : Wf m = true) (h : ∀ p ∈ m, k < p.1) :
    Wf ((k, v) :: m) = true := by
  cases m with
  | nil => rfl
  | cons x r =>
    obtain ⟨k1, v1⟩ := x
    simp only [Wf, Bool.and_eq_true, decide_eq_true_eq]
    exact ⟨h (k1, v1) (List.mem_cons_self _ _), hwf⟩

/-- Helper: filtering preserves well-formedness. -/
theorem wf_filter {l : SMap α} (p : Nat × α → Bool) (h : Wf l = true) :
    Wf (l.filter p) = true := by
  induction l with
  | nil => rfl
  | cons x r ih =>
    obtain ⟨k, v⟩ := x
    have hr := ih (wf_cons h)
    by_cases hp : p (k, v) = true
    · rw [List.filter_cons_of_pos (by simpa using hp)]
      refine wf_cons_of_head_lt v hr ?_
      intro q hq
      obtain ⟨kq, vq⟩ := q
      exact wf_head_lt h (List.mem_of_mem_filter hq)
    · rw [List.filter_cons_of_neg (by simpa using hp)]
      exact hr

/-- Helper: a key-preserving filterMap keeps well-formedness. -/
theorem wf_filterMap {l : SMap α} {g : Nat × α → Option (Nat × β)}
    (hg : ∀ p x, g p = some x → x.1 = p.1) (h : Wf l = true) :
    Wf (l.filterMap g) = true := by
  induction l with
  | nil => rfl
  | cons x r ih =>
    obtain ⟨k, v⟩ := x
    have hr := ih (wf_cons h)
    rw [List.filterMap_cons]
    cases hgx : g (k, v) with
    | none => exact hr
    | some y =>
      refine wf_cons_of_head_lt y.2 hr ?_
      intro q hq
      obtain ⟨p, hp, hgp⟩ := List.mem_filterMap.mp hq
      obtain ⟨kp, vp⟩ := p
      have h1 : q.1 = kp := hg _ _ hgp
      have h2 : k < kp := wf_head_lt h hp
      have h3 : y.1 = k := hg _ _ hgx
      rw [h3, h1]
      exact h2

/-- Helper: two well-formed maps agreeing on every lookup are equal. -/
theorem find?_ext {m1 : SMap α} : ∀ {m2 : SMap α}, Wf m1 = true →
    Wf m2 = true → (∀ k, m1.find? k = m2.find? k) → m1 = m2 := by
  induction m1 with
  | nil =>
    intro m2 _ _ h
    cases m2 with
    | nil => rfl
    | cons x r =>
      obtain ⟨k, v⟩ := x
      have := h k
      simp [find?] at this
  | cons x r1 ih =>
    intro m2 h1 h2 h
    obtain ⟨k1, v1⟩ := x
    cases m2 with
    | nil =>
      have := h k1
      simp [find?] at this
    | cons y r2 =>
      obtain ⟨k2, v2⟩ := y
      rcases Nat.lt_trichotomy k1 k2 with hlt | heq | hgt
      · have hk1 := h k1
        rw [find?_head_lt h2 hlt] at hk1
        simp [find?] at hk1
      · subst heq
        have hk1 := h k1
        simp only [find?, if_pos rfl, Option.some.injEq] at hk1
        cases hk1
        have hr : r1 = r2 := by
          refine ih (wf_cons h1) (wf_cons h2) ?_
          intro k
          by_cases hk : k1 = k
          · subst hk
            rw [find?_eq_none_of_forall, find?_eq_none_of_forall]
            · intro p hp
              obtain ⟨kp, vp⟩ := p
              have := wf_head_lt h2 hp
              omega
            · intro p hp
              obtain ⟨kp, vp⟩ := p
              have := wf_head_lt h1 hp
              omega
          · have := h k
            simpa [find?, if_neg hk] using this
        rw [hr]
      · have hk2 := h k2
        rw [find?_head_lt h1 hgt] at hk2
        simp [find?] at hk2

end SMap


namespace SMap

/-- Helper: a missing key is absent from the entries. -/
theorem forall_of_find?_eq_none {m : SMap α} {k : Nat}
    (h : find? m k = none) : ∀ p ∈ m, p.1 ≠ k := by
  induction m with
  | nil => intro p hp; cases hp
  | cons x r ih =>
    intro p hp
    obtain ⟨k1, v1⟩ := x
    simp only [find?] at h
    by_cases h1 : k1 = k
    · rw [if_pos h1] at h; cases h
    · rw [if_neg h1] at h
      rcases List.mem_cons.mp hp with h2 | h2
      · subst h2; exact h1
      · exact ih h p h2

/-- Helper: looking up a present key through the inline filterMap of the
serializer. -/
theorem find?_filterMap_some {act : SMap ActiveStake}
    (inact : SMap InactiveStake) {k : Nat} {v : ActiveStake}
    (hwf : Wf act = true) (h : find? act k = some v) :
    find? (act.filterMap (fun p => (find? inact p.1).map (fun st => (p.1, st)))) k =
    find? inact k := by
  induction act with
  | nil => cases h
  | cons x r ih =>
    obtain ⟨k1, v1⟩ := x
    simp only [find?] at h
    by_cases h1 : k1 = k
    · subst h1
      rw [List.filterMap_cons]
      cases hf : find? inact k1 with
      | some st =>
        simp [hf, find?]
      | none =>
        simp only [hf, Option.map_none']
        rw [find?_eq_none_of_forall]
        intro p hp
        obtain ⟨q, hq, hgq⟩ := List.mem_filterMap.mp hp
        obtain ⟨kq, vq⟩ := q
        cases hfq : find? inact kq with
        | none => rw [hfq] at hgq; cases hgq
        | some stq =>
          rw [hfq] at hgq
          cases hgq
          have := wf_head_lt hwf hq
          show kq ≠ k1
          omega
    · rw [if_neg h1] at h
      rw [List.filterMap_cons]
      cases hf : find? inact k1 with
      | some st =>
        simp only [hf, Option.map_some']
        have hstep : find? ((k1, st) ::
            r.filterMap (fun p => (find? inact p.1).map (fun st => (p.1, st)))) k =
            find? (r.filterMap (fun p => (find? inact p.1).map (fun st => (p.1, st)))) k := by
          simp only [find?, if_neg h1]
        rw [hstep]
        exact ih (wf_cons hwf) h
      | none =>
        simp only [hf, Option.map_none']
        exact ih (wf_cons hwf) h

/-- Helper: looking up an absent key through the inline filterMap of the
serializer. -/
theorem find?_filterMap_none {act : SMap ActiveStake}
    (inact : SMap InactiveStake) {k : Nat} (h : find? act k = none) :
    find? (act.filterMap (fun p => (find? inact p.1).map (fun st => (p.1, st)))) k =
    none := by
  apply find?_eq_none_of_forall
  intro p hp
  obtain ⟨q, hq, hgq⟩ := List.mem_filterMap.mp hp
  obtain ⟨kq, vq⟩ := q
  cases hfq : find? inact kq with
  | none => rw [hfq] at hgq; cases hgq
  | some stq =>
    rw [hfq] at hgq
    cases hgq
    exact forall_of_find?_eq_none h (kq, vq) hq

/-- Helper: looking up a present key in a filtered map. -/
theorem find?_filter_some {m : SMap α} {p : Nat × α → Bool} {k : Nat} {v : α}
    (hwf : Wf m = true) (h : find? m k = some v) :
    find? (m.filter p) k = if p (k, v) then some v else none := by
  induction m with
  | nil => cases h
  | cons x r ih =>
    obtain ⟨k1, v1⟩ := x
    simp only [find?] at h
    by_cases h1 : k1 = k
    · subst h1
      rw [if_pos rfl] at h
      cases h
      by_cases hp : p (k1, v) = true
      · rw [List.filter_cons_of_pos (by simpa using hp)]
        simp [find?, hp]
      · have hp' : p (k1, v) = false := Bool.eq_false_iff.mpr hp
        rw [List.filter_cons_of_neg (by simpa using hp')]
        rw [hp', if_neg (by simp : ¬(false = true))]
        rw [find?_eq_none_of_forall]
        intro q hq
        obtain ⟨kq, vq⟩ := q
        have := wf_head_lt hwf (List.mem_of_mem_filter hq)
        show kq ≠ k1
        omega
    · rw [if_neg h1] at h
      by_cases hp : p (k1, v1) = true
      · rw [List.filter_cons_of_pos (by simpa using hp)]
        have hstep : find? ((k1, v1) :: r.filter p) k = find? (r.filter p) k := by
          simp only [find?, if_neg h1]
        rw [hstep]
        exact ih (wf_cons hwf) h
      · have hp' : p (k1, v1) = false := Bool.eq_false_iff.mpr hp
        rw [List.filter_cons_of_neg (by simpa using hp')]
        exact ih (wf_cons hwf) h

/-- Helper: looking up an absent key in a filtered map. -/
theorem find?_filter_none {m : SMap α} {p : Nat × α → Bool} {k : Nat}
    (h : find? m k = none) : find? (m.filter p) k = none := by
  apply find?_eq_none_of_forall
  intro q hq
  exact forall_of_find?_eq_none h q (List.mem_of_mem_filter hq)

/-- Helper: the inline inactive stakes of the serializer are exactly the
inactive entries whose address carries an active stake. -/
theorem inline_filterMap_eq_filter {act : SMap ActiveStake}
    {inact : SMap InactiveStake} (hwfA : Wf act = true)
    (hwfI : Wf inact = true) :
    act.filterMap (fun p => (find? inact p.1).map (fun st => (p.1, st))) =
    inact.filter (fun p => contains act p.1) := by
  have hg : ∀ (p : Nat × ActiveStake) (x : Nat × InactiveStake),
      (find? inact p.1).map (fun st => (p.1, st)) = some x → x.1 = p.1 := by
    intro p x hx
    cases hf : find? inact p.1 with
    | none => rw [hf] at hx; cases hx
    | some st => rw [hf] at hx; cases hx; rfl
  refine find?_ext (wf_filterMap hg hwfA) (wf_filter _ hwfI) ?_
  intro k
  cases hak : find? act k with
  | some v =>
    rw [find?_filterMap_some inact hwfA hak]
    cases hik : find? inact k with
    | some st =>
      rw [find?_filter_some hwfI hik]
      have hc : contains act k = true := contains_of_find?_some hak
      simp [hc, hik]
    | none =>
      rw [find?_filter_none hik]
  | none =>
    rw [find?_filterMap_none inact hak]
    cases hik : find? inact k with
    | some st =>
      rw [find?_filter_some hwfI hik]
      have hc : contains act k = false := by
        unfold contains
        rw [hak]
        rfl
      simp [hc]
    | none => rw [find?_filter_none hik]

end SMap

/-- Helper: insertion sort is the identity on an address-sorted inactive
stake list. -/
theorem sortBy_id_of_wf {l : SMap InactiveStake} (h : SMap.Wf l = true) :
    sortBy inactiveStakeLe l = l := by
  induction l with
  | nil => rfl
  | cons x r ih =>
    have hstep : sortBy inactiveStakeLe (x :: r) =
        insertSortedBy inactiveStakeLe x (sortBy inactiveStakeLe r) := rfl
    rw [hstep, ih (SMap.wf_cons (by exact h))]
    cases r with
    | nil => rfl
    | cons y r2 =>
      obtain ⟨k, v⟩ := x
      obtain ⟨k1, v1⟩ := y
      simp only [SMap.Wf, Bool.and_eq_true, decide_eq_true_eq] at h
      have hle : inactiveStakeLe (k, v) (k1, v1) = true := by
        simp [inactiveStakeLe, h.1]
      simp [insertSortedBy, hle]

/-- Helper: the inline fold of the deserializer's active-stake loop builds
the inline filterMap. -/
theorem foldl_inline_restore (inactM : SMap InactiveStake) :
    ∀ (act : SMap ActiveStake) (acc : SMap InactiveStake),
    (∀ p ∈ acc, ∀ q ∈ act, p.1 < q.1) → SMap.Wf act = true →
    act.foldl (fun m p => match SMap.find? inactM p.1 with
      | some st => SMap.insert m p.1 st
      | none => m) acc =
    acc ++ act.filterMap
      (fun p => (SMap.find? inactM p.1).map (fun st => (p.1, st))) := by
  intro act
  induction act with
  | nil => intro acc _ _; simp
  | cons x r ih =>
    intro acc hord hwf
    obtain ⟨k, v⟩ := x
    cases hf : SMap.find? inactM k with
    | none =>
      simp only [List.foldl_cons, List.filterMap_cons, hf, Option.map_none']
      exact ih acc
        (fun p hp q hq => hord p hp q (List.mem_cons_of_mem _ hq))
        (SMap.wf_cons hwf)
    | some st =>
      simp only [List.foldl_cons, List.filterMap_cons, hf, Option.map_some']
      rw [SMap.insert_append_of_lt st
        (fun p hp => hord p hp (k, v) (List.mem_cons_self _ _))]
      rw [ih (acc ++ [(k, st)]) ?_ (SMap.wf_cons hwf)]
      · rw [List.append_assoc, List.singleton_append]
      · intro p hp q hq
        rcases List.mem_append.mp hp with h1 | h1
        · exact hord p h1 q (List.mem_cons_of_mem _ hq)
        · obtain ⟨kq, vq⟩ := q
          have hk : k < kq := SMap.wf_head_lt hwf hq
          rcases List.mem_singleton.mp h1 with h2
          rw [h2]
          exact hk

/-- Helper: the active-stake loop of the deserializer inverts the
serializer's active section. -/
theorem deserActives_spec (inactM : SMap InactiveStake) :
    ∀ (l : SMap ActiveStake) (act0 : SMap ActiveStake)
      (i0 : SMap InactiveStake) (rest : List Nat),
    (∀ p ∈ l, p.1 < 256 ^ 20 ∧ p.2.balance < 256 ^ 8 ∧
      p.2.validator_key < 256 ^ 96 ∧ ∀ x ∈ p.2.reward_address, x < 256 ^ 20) →
    (∀ p ∈ l, ∀ st ∈ SMap.find? inactM p.1, st.balance < 256 ^ 8 ∧
      st.retire_time < 256 ^ 4) →
    deserActives l.length
      ((l.flatMap fun p => serActiveStake p.1 p.2 ++
        serOption serInactiveStake (SMap.find? inactM p.1)) ++ rest) act0 i0 =
    some ((l.foldl (fun m p => SMap.insert m p.1 p.2) act0,
      l.foldl (fun m p => match SMap.find? inactM p.1 with
        | some st => SMap.insert m p.1 st
        | none => m) i0), rest) := by
  intro l
  induction l with
  | nil => intro act0 i0 rest _ _; simp [deserActives]
  | cons x r ih =>
    intro act0 i0 rest hb hib
    obtain ⟨k, v⟩ := x
    obtain ⟨hk, hbal, hkey, hra⟩ := hb (k, v) (List.mem_cons_self _ _)
    have h1 := @deserActiveStake_append k v
      (serOption serInactiveStake (SMap.find? inactM k) ++
        ((r.flatMap fun p => serActiveStake p.1 p.2 ++
          serOption serInactiveStake (SMap.find? inactM p.1)) ++ rest))
      hk hbal hkey hra
    have h2 := @deserOption_serInactiveStake_append
      (SMap.find? inactM k)
      ((r.flatMap fun p => serActiveStake p.1 p.2 ++
        serOption serInactiveStake (SMap.find? inactM p.1)) ++ rest)
      (fun st hst => hib (k, v) (List.mem_cons_self _ _) st hst)
    simp only [List.flatMap_cons, List.append_assoc, List.length_cons,
      deserActives, h1, h2]
    rw [ih (SMap.insert act0 k v)
      (match SMap.find? inactM k with
        | some st => SMap.insert i0 k st
        | none => i0) rest
      (fun p hp => hb p (List.mem_cons_of_mem _ hp))
      (fun p hp => hib p (List.mem_cons_of_mem _ hp))]
    rfl

/-- Helper: the remaining-inactive loop of the deserializer inverts the
serializer's remaining section. -/
theorem deserRemaining_spec :
    ∀ (l : SMap InactiveStake) (acc : SMap InactiveStake) (rest : List Nat),
    (∀ p ∈ l, p.1 < 256 ^ 20 ∧ p.2.balance < 256 ^ 8 ∧
      p.2.retire_time < 256 ^ 4) →
    deserRemaining l.length
      ((l.flatMap fun p => serAddress p.1 ++ serInactiveStake p.2) ++ rest)
      acc =
    some (l.foldl (fun m p => SMap.insert m p.1 p.2) acc, rest) := by
  intro l
  induction l with
  | nil => intro acc rest _; simp [deserRemaining]
  | cons x r ih =>
    intro acc rest hb
    obtain ⟨k, v⟩ := x
    obtain ⟨hk, hbal, hrt⟩ := hb (k, v) (List.mem_cons_self _ _)
    have h1 : deserNat 20 (serAddress k ++
        (serInactiveStake v ++ ((r.flatMap fun p => serAddress p.1 ++
          serInactiveStake p.2) ++ rest))) =
        some (k, serInactiveStake v ++ ((r.flatMap fun p => serAddress p.1 ++
          serInactiveStake p.2) ++ rest)) := deserNat_append _ hk
    have h2 := @deserInactiveStake_append v
      ((r.flatMap fun p => serAddress p.1 ++ serInactiveStake p.2) ++ rest)
      hbal hrt
    simp only [List.flatMap_cons, List.append_assoc, List.length_cons,
      deserRemaining, h1, h2]
    rw [ih (SMap.insert acc k v) rest
      (fun p hp => hb p (List.mem_cons_of_mem _ hp))]
    rfl

/-- Helper: the parking loop of the deserializer inverts the serializer's
parking section. -/
theorem deserParking_spec :
    ∀ (l : SMap Unit) (acc : SMap Unit) (rest : List Nat),
    (∀ p ∈ l, p.1 < 256 ^ 20) →
    deserParking l.length ((l.flatMap fun p => serAddress p.1) ++ rest) acc =
    some (l.foldl (fun m p => SMap.insert m p.1 ()) acc, rest) := by
  intro l
  induction l with
  | nil => intro acc rest _; simp [deserParking]
  | cons x r ih =>
    intro acc rest hb
    obtain ⟨k, v⟩ := x
    have hk := hb (k, v) (List.mem_cons_self _ _)
    have h1 : deserNat 20 (serAddress k ++
        ((r.flatMap fun p => serAddress p.1) ++ rest)) =
        some (k, (r.flatMap fun p => serAddress p.1) ++ rest) :=
      deserNat_append _ hk
    simp only [List.flatMap_cons, List.append_assoc, List.length_cons,
      deserParking, h1]
    rw [ih (SMap.insert acc k ()) rest
      (fun p hp => hb p (List.mem_cons_of_mem _ hp))]
    rfl

namespace SMap

/-- Helper: a successful lookup is a member. -/
theorem mem_of_find?_some {m : SMap α} {k : Nat} {v : α}
    (h : find? m k = some v) : (k, v) ∈ m := by
  induction m with
  | nil => cases h
  | cons x r ih =>
    obtain ⟨k1, v1⟩ := x
    simp only [find?] at h
    by_cases h1 : k1 = k
    · rw [if_pos h1] at h
      cases h
      subst h1
      exact List.mem_cons_self _ _
    · rw [if_neg h1] at h
      exact List.mem_cons_of_mem _ (ih h)

/-- Helper: `foldl_insert_self` specialised to unit values, matching the
parking-loop accumulator syntactically. -/
theorem foldl_insert_unit_self {l : SMap Unit} (h : Wf l = true) :
    l.foldl (fun m p => insert m p.1 ()) [] = l :=
  foldl_insert_self h

end SMap

/-- Claim C8: deserializing the canonical serialization of a staking
contract yields the same state (reachable states have well-formed maps,
bounded fields and — under the stake-centric dispatch — empty validator
maps, which the deserializer also produces). -/
theorem serialize_deserialize_roundtrip (s : StakingContract)
    (hwf1 : SMap.Wf s.active_stake_by_address = true)
    (hwf2 : SMap.Wf s.inactive_stake_by_address = true)
    (hwf3 : SMap.Wf s.current_epoch_parking = true)
    (hwf4 : SMap.Wf s.previous_epoch_parking = true)
    (hav : s.active_validators_by_key = [])
    (hiv : s.inactive_validators_by_key = [])
    (hsb : s.SerBounds = true) :
    deserializeContract s.serializeContract = some (s, []) := by
  simp only [StakingContract.SerBounds, Bool.and_eq_true,
    decide_eq_true_eq] at hsb
  obtain ⟨⟨⟨⟨⟨⟨⟨⟨hb1, hb2⟩, hb3⟩, hb4⟩, hb5⟩, hb6⟩, hb7⟩, hb8⟩, hb9⟩ := hsb
  have hallA : ∀ p ∈ s.active_stake_by_address, p.1 < 256 ^ 20 ∧
      p.2.balance < 256 ^ 8 ∧ p.2.validator_key < 256 ^ 96 ∧
      ∀ x ∈ p.2.reward_address, x < 256 ^ 20 := by
    intro p hp
    have hq := SMap.mem_imp_of_all hb6 p hp
    simp only [Bool.and_eq_true, decide_eq_true_eq] at hq
    refine ⟨hq.1.1.1, hq.1.1.2, hq.1.2, ?_⟩
    intro x hx
    cases hrw : p.2.reward_address with
    | none => rw [hrw] at hx; cases hx
    | some y =>
      rw [hrw] at hx hq
      have hy : y = x := by simpa using hx
      subst hy
      simpa using hq.2
  have hibA : ∀ p ∈ s.active_stake_by_address,
      ∀ st ∈ SMap.find? s.inactive_stake_by_address p.1,
      st.balance < 256 ^ 8 ∧ st.retire_time < 256 ^ 4 := by
    intro p hp st hst
    have hfind : SMap.find? s.inactive_stake_by_address p.1 = some st :=
      hst
    have hmem := SMap.mem_of_find?_some hfind
    have hq := SMap.mem_imp_of_all hb7 (p.1, st) hmem
    simp only [Bool.and_eq_true, decide_eq_true_eq] at hq
    exact ⟨hq.1.2, hq.2⟩
  have hremB : ∀ p ∈ s.inactive_stake_by_address.filter
      (fun p => !s.active_stake_by_address.contains p.1),
      p.1 < 256 ^ 20 ∧ p.2.balance < 256 ^ 8 ∧ p.2.retire_time < 256 ^ 4 := by
    intro p hp
    have hq := SMap.mem_imp_of_all hb7 p (List.mem_of_mem_filter hp)
    simp only [Bool.and_eq_true, decide_eq_true_eq] at hq
    exact ⟨hq.1.1, hq.1.2, hq.2⟩
  have hcurB : ∀ p ∈ s.current_epoch_parking, p.1 < 256 ^ 20 := by
    intro p hp
    have hq := SMap.mem_imp_of_all hb8 p hp
    simpa using hq
  have hprevB : ∀ p ∈ s.previous_epoch_parking, p.1 < 256 ^ 20 := by
    intro p hp
    have hq := SMap.mem_imp_of_all hb9 p hp
    simpa using hq
  have hlenR : (s.inactive_stake_by_address.filter
      (fun p => !s.active_stake_by_address.contains p.1)).length < 256 ^ 4 :=
    Nat.lt_of_le_of_lt (List.length_filter_le _ _) hb3
  have hinline := foldl_inline_restore s.inactive_stake_by_address
    s.active_stake_by_address [] (by intro p hp; cases hp) hwf1
  rw [List.nil_append] at hinline
  have hprevP : deserParking s.previous_epoch_parking.length
      (s.previous_epoch_parking.flatMap fun p => serAddress p.1) [] =
      some (s.previous_epoch_parking.foldl
        (fun m p => SMap.insert m p.1 ()) [], []) := by
    have hh := deserParking_spec s.previous_epoch_parking [] [] hprevB
    rwa [List.append_nil] at hh
  unfold StakingContract.serializeContract
  simp only []
  rw [sortBy_id_of_wf (SMap.wf_filter _ hwf2)]
  unfold deserializeContract
  simp only [serCoin, serU32, List.append_assoc,
    deserNat_append _ hb1, deserNat_append _ hb2, deserNat_append _ hlenR,
    deserNat_append _ hb4, deserNat_append _ hb5,
    deserActives_spec s.inactive_stake_by_address s.active_stake_by_address
      _ _ _ hallA hibA,
    deserRemaining_spec _ _ _ hremB,
    deserParking_spec _ _ _ hcurB, hprevP,
    SMap.foldl_insert_self hwf1, hinline,
    SMap.inline_filterMap_eq_filter hwf1 hwf2,
    SMap.filter_merge (fun p => SMap.contains s.active_stake_by_address p.1)
      hwf2,
    SMap.foldl_insert_unit_self hwf3, SMap.foldl_insert_unit_self hwf4]
  rw [← hav, ← hiv]

/-- Witness for C8 on a contract exercising every serializer section: one
active stake with an inline inactive stake, one remaining inactive stake,
and a parked address. -/
theorem serialize_deserialize_roundtrip_witness :
    exC8State.SerBounds = true ∧
    deserializeContract exC8State.serializeContract = some (exC8State, []) :=
  ⟨by decide,
   serialize_deserialize_roundtrip exC8State rfl rfl rfl rfl rfl rfl
     (by decide)⟩

/-- Helper: the sampling loop always emits one slot per draw. -/
theorem selectLoop_length (pv : SMap ActiveStake) (weights : List Nat) :
    ∀ (n : Nat) (rng : VrfRng), (selectLoop pv weights n rng).length = n := by
  intro n
  induction n with
  | zero => intro rng; rfl
  | succ n ih =>
    intro rng
    simp only [selectLoop, List.length_cons, ih]

/-- Helper: the bucket index stays inside the weight table. -/
theorem pickIndex_lt (weights : List Nat) : ∀ x : Nat, x < weights.sum →
    pickIndex weights x < weights.length := by
  induction weights with
  | nil => intro x hx; simp at hx
  | cons w r ih =>
    intro x hx
    simp only [pickIndex, List.length_cons]
    by_cases hw : x < w
    · rw [if_pos hw]
      omega
    · rw [if_neg hw]
      have hr : x - w < r.sum := by
        simp only [List.sum_cons] at hx
        omega
      have := ih (x - w) hr
      omega

/-- Helper: an alias-method sample stays inside a nonempty weight table. -/
theorem aliasSample_lt (weights : List Nat) (rng : VrfRng)
    (h : weights ≠ []) : (aliasSample weights rng).1 < weights.length := by
  have hlen : 0 < weights.length := List.length_pos.mpr h
  rcases hnext : rng.next with ⟨x, rng1⟩
  unfold aliasSample
  simp only [hnext]
  by_cases ht : weights.sum = 0
  · rw [if_pos ht, Nat.max_eq_right hlen]
    exact Nat.mod_lt _ hlen
  · rw [if_neg ht]
    exact pickIndex_lt weights _ (Nat.mod_lt _ (by omega))

/-- Helper: every emitted slot is built from an entry of the active-stake
table when the table is nonempty and the weights mirror it. -/
theorem selectLoop_mem (pv : SMap ActiveStake) (weights : List Nat)
    (hne : pv ≠ []) (hlen : weights.length = pv.length) :
    ∀ (n : Nat) (rng : VrfRng), ∀ sl ∈ selectLoop pv weights n rng,
    ∃ p ∈ pv, sl = (p.2.validator_key, p.1, p.2.reward_address) := by
  intro n
  induction n with
  | zero => intro rng sl hsl; cases hsl
  | succ n ih =>
    intro rng sl hsl
    simp only [selectLoop] at hsl
    rcases List.mem_cons.mp hsl with h1 | h1
    · have hwne : weights ≠ [] := by
        intro hw
        rw [hw] at hlen
        simp at hlen
        exact hne (List.eq_nil_of_length_eq_zero hlen.symm)
      have hidx : (aliasSample weights rng).1 < pv.length := by
        rw [← hlen]
        exact aliasSample_lt weights rng hwne
      refine ⟨pv.getD (aliasSample weights rng).1 defaultActiveStake, ?_, ?_⟩
      · rw [List.getD_eq_getElem pv defaultActiveStake hidx]
        exact List.getElem_mem _
      · exact h1
    · exact ih _ sl h1

/-- Claim C9: `select_validators` is a deterministic function of the
active-stake table and the seed — two contracts with equal tables yield
identical slot lists on the same seed; the list holds exactly `SLOTS`
samples, each drawn through the alias table from an entry of the table (when
it is nonempty). -/
theorem select_validators_deterministic (s1 s2 : StakingContract)
    (seed : Nat)
    (h : s1.active_stake_by_address = s2.active_stake_by_address) :
    s1.select_validators seed = s2.select_validators seed ∧
    (s1.select_validators seed).length = SLOTS ∧
    (s1.active_stake_by_address ≠ [] →
      ∀ sl ∈ s1.select_validators seed, ∃ p ∈ s1.active_stake_by_address,
        sl = (p.2.validator_key, p.1, p.2.reward_address)) := by
  refine ⟨?_, ?_, ?_⟩
  · simp only [StakingContract.select_validators, h]
  · simp only [StakingContract.select_validators]
    exact selectLoop_length _ _ SLOTS _
  · intro hne sl hsl
    simp only [StakingContract.select_validators] at hsl
    refine selectLoop_mem s1.active_stake_by_address
      (s1.active_stake_by_address.map (fun p => p.2.balance)) hne
      (List.length_map _ _) SLOTS _ sl hsl

/-- Witness for C9: two contracts equal in their active-stake table but
differing in balance select identical slots from seed 42. -/
theorem select_validators_deterministic_witness :
    (⟨5, [], [], [(2, ⟨3, 9, some 4⟩)], [], [], []⟩ :
      StakingContract).active_stake_by_address =
    (⟨99, [], [], [(2, ⟨3, 9, some 4⟩)], [], [], []⟩ :
      StakingContract).active_stake_by_address ∧
    StakingContract.select_validators
      ⟨5, [], [], [(2, ⟨3, 9, some 4⟩)], [], [], []⟩ 42 =
    StakingContract.select_validators
      ⟨99, [], [], [(2, ⟨3, 9, some 4⟩)], [], [], []⟩ 42 :=
  ⟨rfl, (select_validators_deterministic
    ⟨5, [], [], [(2, ⟨3, 9, some 4⟩)], [], [], []⟩
    ⟨99, [], [], [(2, ⟨3, 9, some 4⟩)], [], [], []⟩ 42 rfl).1⟩
